import Mathlib

/-!
# Verification of `FixedHashTable` (src/hash_table/hash_table.py)

Shallow embedding of the fixed-capacity open-addressing hash table with
linear probing, deletion-time cluster repair, and an intrusive doubly
linked insertion/update-order list.

Modelling conventions:

* Keys and values are natural numbers.  Python's global `hash` function is
  a parameter `hf : Nat → Nat`; `_hash` is `hf k % size`.
* A `Node` stores `key`, `value` and `prev`/`next` pointers.  In every
  state the program produces, the nodes form a well-formed doubly linked
  list from `head` to `tail`, and each live node sits in exactly one slot.
  We therefore represent the slot array as a list of optional
  `(key, value)` payloads and the order list as the sequence of keys read
  from `head` to `tail`; the pointer operations `_remove_node`,
  `_add_to_end` and `_move_to_end` become the corresponding sequence
  operations (erase, append, and the `_move_to_end` early-return on the
  tail followed by unlink-and-append).  Node payloads are stored once, in
  the slot array, mirroring the single shared `Node` object.
* Python's `count` is a machine-independent integer, embedded as `Int`.
* `raise` happens in the source before any mutation on every failure
  path, so failing operations are embedded as returning `Except.error`
  with the state untouched.
* The `while` loops of `_find_slot` and `_rehash_cluster` advance the
  index by `(idx + 1) % size` and break upon wrapping back to the start
  index, so they perform at most `size` iterations; they are embedded
  with explicit fuel, and fuel-irrelevance above that bound is proved.
-/

deriving instance DecidableEq for Except

namespace HashTable

/-- One stored payload: `(key, value)` of a live `Node`. -/
abbrev Entry := Nat × Nat

/-- The table state: `size`, slot array (`self.table`), `count`, and the
order list read from `head` (oldest) to `tail` (newest). -/
structure Table where
  size : Nat
  slots : List (Option Entry)
  count : Int
  order : List Nat
deriving Repr, DecidableEq

/-- `FixedHashTable.__init__`. -/
def mkTable (n : Nat) : Table :=
  { size := n, slots := List.replicate n none, count := 0, order := [] }

/-- `self.table[i]` (out-of-range reads as `none`; all actual accesses are
in range). -/
def slotAt (t : Table) (i : Nat) : Option Entry :=
  t.slots.getD i none

/-- `self._hash(key)`: `hash(key) % self.size`. -/
def hashIdx (hf : Nat → Nat) (t : Table) (k : Nat) : Nat :=
  hf k % t.size

/-- Guard `self.table[idx] is not None and self.table[idx].key == key`. -/
def keyHere (t : Table) (i k : Nat) : Bool :=
  (slotAt t i).any (fun e => e.1 = k)

/-- Loop body of `_find_slot`: scan from `idx` while slots are occupied,
returning on a key match or an empty slot, breaking (and returning
`start`) upon wrapping back to `start`. -/
def findSlotGo (t : Table) (k : Nat) (start : Nat) : Nat → Nat → Nat
  | 0, idx => idx
  | fuel + 1, idx =>
    match slotAt t idx with
    | none => idx
    | some e =>
      if e.1 = k then idx
      else
        let idx' := (idx + 1) % t.size
        if idx' = start then idx'
        else findSlotGo t k start fuel idx'

/-- `self._find_slot(key)`. -/
def findSlot (hf : Nat → Nat) (t : Table) (k : Nat) : Nat :=
  findSlotGo t k (hashIdx hf t k) t.size (hashIdx hf t k)

/-- The two failure kinds: `Exception("Hash table is full")` and
`KeyError`. -/
inductive Err where
  | full
  | notFound
deriving Repr, DecidableEq

/-- `self._move_to_end(node)`: no-op when the node is already the tail,
otherwise `_remove_node` followed by `_add_to_end`. -/
def moveToEnd (order : List Nat) (k : Nat) : List Nat :=
  if order.getLast? = some k then order
  else order.erase k ++ [k]

/-- `self.insert(key, value)`. -/
def insert (hf : Nat → Nat) (t : Table) (k v : Nat) : Except Err Table :=
  let idx := findSlot hf t k
  if keyHere t idx k then
    -- update existing: `node.value = value`; `_move_to_end(node)`
    .ok { t with slots := t.slots.set idx (some (k, v)),
                 order := moveToEnd t.order k }
  else if (t.size : Int) ≤ t.count then
    .error .full
  else
    -- new insertion: place node, `_add_to_end`, `count += 1`
    .ok { t with slots := t.slots.set idx (some (k, v)),
                 order := t.order ++ [k],
                 count := t.count + 1 }

/-- `self.get(key)`. -/
def get (hf : Nat → Nat) (t : Table) (k : Nat) : Except Err Nat :=
  let idx := findSlot hf t k
  match slotAt t idx with
  | none => .error .notFound
  | some e => if e.1 = k then .ok e.2 else .error .notFound

/-- Loop body of `_rehash_cluster`: walk forward from the slot after the
cleared one; while slots are occupied, pull the node out of the table
(`count -= 1`), re-seat it via `_find_slot` (`count += 1`), advance, and
break upon wrapping back to `start`.  The order list is never touched. -/
def rehashGo (hf : Nat → Nat) (start : Nat) : Nat → Nat → Table → Table
  | 0, _, t => t
  | fuel + 1, idx, t =>
    match slotAt t idx with
    | none => t
    | some e =>
      let t1 : Table := { t with slots := t.slots.set idx none,
                                 count := t.count - 1 }
      let ni := findSlot hf t1 e.1
      let t2 : Table := { t1 with slots := t1.slots.set ni (some e),
                                  count := t1.count + 1 }
      let idx' := (idx + 1) % t.size
      if idx' = start then t2
      else rehashGo hf start fuel idx' t2

/-- `self._rehash_cluster(start_idx)`. -/
def rehashCluster (hf : Nat → Nat) (t : Table) (start : Nat) : Table :=
  rehashGo hf start t.size ((start + 1) % t.size) t

/-- `self.remove(key)`: locate, `_remove_node`, clear the slot,
`count -= 1`, then `_rehash_cluster(idx)`. -/
def remove (hf : Nat → Nat) (t : Table) (k : Nat) : Except Err Table :=
  let idx := findSlot hf t k
  if keyHere t idx k then
    let t1 : Table := { t with slots := t.slots.set idx none,
                               count := t.count - 1,
                               order := t.order.erase k }
    .ok (rehashCluster hf t1 idx)
  else .error .notFound

/-- Value stored with key `k` (the payload of `k`'s node), read from the
slot array. -/
def valOf (t : Table) (k : Nat) : Option Nat :=
  ((t.slots.filterMap id).find? (fun e => e.1 = k)).map (fun e => e.2)

/-- `self.get_first()`: the head node's `(key, value)`, or `None`. -/
def getFirst (t : Table) : Option Entry :=
  t.order.head?.map (fun k => (k, (valOf t k).getD 0))

/-- `self.get_last()`: the tail node's `(key, value)`, or `None`. -/
def getLast (t : Table) : Option Entry :=
  t.order.getLast?.map (fun k => (k, (valOf t k).getD 0))

/-- One client-visible operation. -/
inductive Op where
  | ins (k v : Nat)
  | rem (k : Nat)
  | qget (k : Nat)
  | qfirst
  | qlast
deriving Repr, DecidableEq

/-- Apply one operation; a raised error leaves the table untouched
(the source raises before mutating), queries never mutate. -/
def applyOp (hf : Nat → Nat) (t : Table) : Op → Table
  | .ins k v =>
    match insert hf t k v with
    | .ok t' => t'
    | .error _ => t
  | .rem k =>
    match remove hf t k with
    | .ok t' => t'
    | .error _ => t
  | .qget _ => t
  | .qfirst => t
  | .qlast => t

/-- Run a sequence of operations. -/
def runOps (hf : Nat → Nat) (t : Table) : List Op → Table
  | [] => t
  | op :: ops => runOps hf (applyOp hf t op) ops

/-- Table states reachable from a freshly constructed table of positive
capacity by any sequence of operations. -/
inductive Reachable (hf : Nat → Nat) : Table → Prop where
  | init (n : Nat) (hn : 1 ≤ n) : Reachable hf (mkTable n)
  | step (t : Table) (op : Op) (h : Reachable hf t) :
      Reachable hf (applyOp hf t op)

/-- Number of occupied slots. -/
def occCount (t : Table) : Nat :=
  (t.slots.filterMap id).length

/-- Forward (wrapping) probe distance from `a` to `b` in a table of
`n` slots, for `a b < n`. -/
def dist (n a b : Nat) : Nat :=
  if a ≤ b then b - a else b + n - a

/-- The keys currently stored in the slot array. -/
def tblKeys (t : Table) : List Nat :=
  (t.slots.filterMap id).map Prod.fst

/-- `k` is stored in some slot.  (Decidable, via `tblKeys`.) -/
def Present (t : Table) (k : Nat) : Prop :=
  k ∈ tblKeys t

instance (t : Table) (k : Nat) : Decidable (Present t k) := by
  unfold Present; infer_instance

/-- The condition on which `_find_slot`'s scan returns slot `i`: empty, or
holding the probed key. -/
def IsStop (t : Table) (k i : Nat) : Prop :=
  slotAt t i = none ∨ ∃ v, slotAt t i = some (k, v)

/-- Each key is stored in at most one slot. -/
def Uniq (t : Table) : Prop :=
  ∀ i j k vi vj, slotAt t i = some (k, vi) → slotAt t j = some (k, vj) → i = j

/-- The open-addressing invariant: every slot on the probe path from a
stored key's hash position to its slot is occupied. -/
def ProbeOK (hf : Nat → Nat) (t : Table) : Prop :=
  ∀ i k v, slotAt t i = some (k, v) →
    ∀ j, j < t.size →
      dist t.size (hashIdx hf t k) j < dist t.size (hashIdx hf t k) i →
      slotAt t j ≠ none

/-- On a full table, some slot lies on no stored key's probe path.  (This
is the extra fact full reachable configurations satisfy; it is what makes
deletion-time cluster repair sound.) -/
def Escape (hf : Nat → Nat) (t : Table) : Prop :=
  occCount t = t.size → ∃ m, m < t.size ∧
    ∀ i k v, slotAt t i = some (k, v) →
      ¬ dist t.size (hashIdx hf t k) m < dist t.size (hashIdx hf t k) i

/-- Well-formedness invariant of a table, relating the slot array, the
order list, `count`, and the probing structure. -/
structure WF (hf : Nat → Nat) (t : Table) : Prop where
  size_pos : 0 < t.size
  slots_len : t.slots.length = t.size
  count_ord : t.count = (t.order.length : Int)
  occ_ord : occCount t = t.order.length
  nodup : t.order.Nodup
  mem_iff : ∀ k, k ∈ t.order ↔ ∃ i v, slotAt t i = some (k, v)
  uniq : Uniq t
  probe : ProbeOK hf t
  escape : Escape hf t

/-- Key `k` is stored with value `v` in some slot. -/
def HasVal (t : Table) (k v : Nat) : Prop :=
  ∃ i, slotAt t i = some (k, v)

/-- Loop invariant of `_rehash_cluster`, parameterised by the table `t0`
the loop started from (the state right after the removed entry's slot was
cleared), the cleared index `start`, the boundary offset `M` (offset of
the first empty slot after `start` when one exists, otherwise of an
escape slot of the previously full table), and the walk offset `d` of the
slot about to be examined.  Offsets are probe distances from `start`. -/
structure RehashInv (hf : Nat → Nat) (t0 : Table) (start M d : Nat)
    (t : Table) : Prop where
  size_eq : t.size = t0.size
  len_eq : t.slots.length = t0.slots.length
  order_eq : t.order = t0.order
  count_eq : t.count = t0.count
  uniq : Uniq t
  entries : ∀ k v, (∃ i, slotAt t i = some (k, v)) ↔
    (∃ i, slotAt t0 i = some (k, v))
  occ : occCount t = occCount t0
  frame : ∀ o, d ≤ o → o < t0.size →
    slotAt t ((start + o) % t0.size) = slotAt t0 ((start + o) % t0.size)
  frameTail : ∀ o, M < o → o < t0.size →
    slotAt t ((start + o) % t0.size) = slotAt t0 ((start + o) % t0.size)
  good : ∀ i k v, slotAt t i = some (k, v) →
    (dist t0.size start i < d ∨ M < dist t0.size start i) →
    (∀ j, j < t0.size →
      dist t0.size (hashIdx hf t0 k) j < dist t0.size (hashIdx hf t0 k) i →
      slotAt t j ≠ none) ∧
    (∀ j, j < t0.size →
      dist t0.size (hashIdx hf t0 k) j < dist t0.size (hashIdx hf t0 k) i →
      ¬ (d ≤ dist t0.size start j ∧ dist t0.size start j ≤ M))
  bound : d ≤ M ∨
    (∀ o, 1 ≤ o → o < t0.size → slotAt t0 ((start + o) % t0.size) ≠ none)

/-- What holds of the table `_rehash_cluster` returns. -/
structure RehashOut (hf : Nat → Nat) (t0 : Table) (t : Table) : Prop where
  size_eq : t.size = t0.size
  len_eq : t.slots.length = t0.slots.length
  order_eq : t.order = t0.order
  count_eq : t.count = t0.count
  uniq : Uniq t
  entries : ∀ k v, (∃ i, slotAt t i = some (k, v)) ↔
    (∃ i, slotAt t0 i = some (k, v))
  occ : occCount t = occCount t0
  probe : ProbeOK hf t

/-- Modelled from the spec: the recency sequence of live `(key, value)`
entries, oldest first.  Inserting a new key appends it; inserting an
existing key updates its value and moves it to the end; a full-table
insert of a new key and operations on absent keys fail and change
nothing; queries change nothing.  (`size` bounds the number of live
entries, as the spec's capacity does.) -/
def recStep (size : Nat) (l : List Entry) : Op → List Entry
  | .ins k v =>
    if (l.map Prod.fst).contains k then l.eraseP (fun e => e.1 = k) ++ [(k, v)]
    else if l.length < size then l ++ [(k, v)]
    else l
  | .rem k =>
    if (l.map Prod.fst).contains k then l.eraseP (fun e => e.1 = k)
    else l
  | .qget _ => l
  | .qfirst => l
  | .qlast => l

/-- Modelled from the spec: recency sequence after a run of operations. -/
def recSpec (size : Nat) (l : List Entry) : List Op → List Entry
  | [] => l
  | op :: ops => recSpec size (recStep size l op) ops

/-- The order list read as `(key, value)` entries (each node's payload). -/
def orderEntries (t : Table) : List Entry :=
  t.order.map (fun k => (k, (valOf t k).getD 0))

/-- The `next` pointer of `k`'s node, read off the head-to-tail order
sequence. -/
def nextInOrder (ord : List Nat) (k : Nat) : Option Nat :=
  match ord with
  | [] => none
  | a :: rest => if a = k then rest.head? else nextInOrder rest k

/-- The `prev` pointer of `k`'s node, read off the head-to-tail order
sequence. -/
def prevInOrder (ord : List Nat) (k : Nat) : Option Nat :=
  match ord with
  | [] => none
  | a :: rest => if rest.head? = some k then some a else prevInOrder rest k

/-! ### Elementary facts: `slotAt`, `List.set`, wrapping arithmetic -/

theorem slotAt_lt_of_some {t : Table} {i : Nat} {e : Entry}
    (h : slotAt t i = some e) : i < t.slots.length := by
  by_contra hge
  rw [slotAt, List.getD_eq_getElem?_getD,
    List.getElem?_eq_none (Nat.le_of_not_lt hge)] at h
  simp at h

theorem getD_set_self {l : List (Option Entry)} {i : Nat} {x : Option Entry}
    (h : i < l.length) : (l.set i x).getD i none = x := by
  rw [List.getD_eq_getElem?_getD, List.getElem?_set_self h]
  rfl

theorem getD_set_ne {l : List (Option Entry)} {i j : Nat} {x : Option Entry}
    (h : i ≠ j) : (l.set i x).getD j none = l.getD j none := by
  rw [List.getD_eq_getElem?_getD, List.getElem?_set_ne h,
    ← List.getD_eq_getElem?_getD]

theorem wrap_eq {n a d : Nat} (ha : a < n) (hd : d < n) :
    (a + d) % n = if a + d < n then a + d else a + d - n := by
  split
  · exact Nat.mod_eq_of_lt (by omega)
  · have h2 : a + d - n + n = a + d := Nat.sub_add_cancel (by omega)
    calc (a + d) % n = (a + d - n + n) % n := by rw [h2]
      _ = (a + d - n) % n := Nat.add_mod_right _ _
      _ = a + d - n := Nat.mod_eq_of_lt (by omega)

theorem dist_lt {n a b : Nat} (ha : a < n) (hb : b < n) : dist n a b < n := by
  unfold dist; split <;> omega

theorem dist_self {n a : Nat} : dist n a a = 0 := by
  unfold dist; simp

theorem add_dist {n a b : Nat} (ha : a < n) (hb : b < n) :
    (a + dist n a b) % n = b := by
  unfold dist; split
  · rw [Nat.mod_eq_of_lt (by omega)]; omega
  · have h2 : a + (b + n - a) = b + n := by omega
    rw [h2, Nat.add_mod_right, Nat.mod_eq_of_lt hb]

theorem dist_add {n a : Nat} (ha : a < n) {d : Nat} (hd : d < n) :
    dist n a ((a + d) % n) = d := by
  rw [wrap_eq ha hd]; unfold dist
  split <;> (split <;> omega)

theorem wrap_inj {n a : Nat} (ha : a < n) {d₁ d₂ : Nat} (h₁ : d₁ < n)
    (h₂ : d₂ < n) (h : (a + d₁) % n = (a + d₂) % n) : d₁ = d₂ := by
  have e₁ := dist_add ha h₁
  have e₂ := dist_add ha h₂
  rw [h] at e₁; omega

theorem wrap_ne_self {n a d : Nat} (ha : a < n) (hd0 : 0 < d) (hd : d < n) :
    (a + d) % n ≠ a := by
  intro h
  have h0 : (a + 0) % n = a := by simpa using Nat.mod_eq_of_lt ha
  have := wrap_inj ha hd (by omega) (h.trans h0.symm)
  omega

theorem wrap_full {n a : Nat} (ha : a < n) : (a + n) % n = a := by
  rw [Nat.add_mod_right, Nat.mod_eq_of_lt ha]

theorem wrap_succ {n a c : Nat} : ((a + c) % n + 1) % n = (a + (c + 1)) % n := by
  rw [Nat.mod_add_mod, Nat.add_assoc]

theorem wrap_lt {n : Nat} (hn : 0 < n) (x : Nat) : x % n < n :=
  Nat.mod_lt _ hn

/-! ### Characterisation of `_find_slot` -/

theorem findSlotGo_hit (t : Table) (k start : Nat) (hs : start < t.size)
    {d : Nat} (hd : d < t.size)
    (hstop : IsStop t k ((start + d) % t.size))
    (hbefore : ∀ d', d' < d → ¬ IsStop t k ((start + d') % t.size)) :
    ∀ fuel c idx, fuel + c = t.size → c ≤ d → idx = (start + c) % t.size →
    findSlotGo t k start fuel idx = (start + d) % t.size := by
  intro fuel
  induction fuel with
  | zero => intro c idx hfc hcd hidx; omega
  | succ fuel ih =>
    intro c idx hfc hcd hidx
    subst hidx
    rcases Nat.eq_or_lt_of_le hcd with hcd' | hcd'
    · subst hcd'
      rcases hstop with hnone | ⟨v, hv⟩
      · simp [findSlotGo, hnone]
      · simp [findSlotGo, hv]
    · have hnstop := hbefore c hcd'
      cases hslot : slotAt t ((start + c) % t.size) with
      | none => exact absurd (Or.inl hslot) hnstop
      | some e =>
        have hek : ¬ e.1 = k := by
          intro h
          exact hnstop (Or.inr ⟨e.2, by rw [hslot, ← h]⟩)
        have hne : (start + (c + 1)) % t.size ≠ start :=
          wrap_ne_self hs (by omega) (by omega)
        simp only [findSlotGo, hslot, if_neg hek, wrap_succ, if_neg hne]
        exact ih (c + 1) _ (by omega) (by omega) rfl

theorem findSlotGo_wrap (t : Table) (k start : Nat) (hs : start < t.size)
    (hall : ∀ d', d' < t.size → ¬ IsStop t k ((start + d') % t.size)) :
    ∀ fuel c idx, fuel + c = t.size → c < t.size → idx = (start + c) % t.size →
    findSlotGo t k start fuel idx = start := by
  intro fuel
  induction fuel with
  | zero => intro c idx hfc hcd hidx; omega
  | succ fuel ih =>
    intro c idx hfc hcd hidx
    subst hidx
    have hnstop := hall c hcd
    cases hslot : slotAt t ((start + c) % t.size) with
    | none => exact absurd (Or.inl hslot) hnstop
    | some e =>
      have hek : ¬ e.1 = k := by
        intro h
        exact hnstop (Or.inr ⟨e.2, by rw [hslot, ← h]⟩)
      rcases Nat.eq_or_lt_of_le (Nat.succ_le_of_lt hcd) with hc1 | hc1
      · have hc1' : c + 1 = t.size := hc1
        have hst : (start + (c + 1)) % t.size = start := by
          rw [hc1']; exact wrap_full hs
        simp [findSlotGo, hslot, if_neg hek, wrap_succ, hst]
      · have hne : (start + (c + 1)) % t.size ≠ start :=
          wrap_ne_self hs (by omega) hc1
        simp only [findSlotGo, hslot, if_neg hek, wrap_succ, if_neg hne]
        exact ih (c + 1) _ (by omega) hc1 rfl

theorem hashIdx_lt (hf : Nat → Nat) {t : Table} (h : 0 < t.size) (k : Nat) :
    hashIdx hf t k < t.size :=
  Nat.mod_lt _ h

theorem slotAt_some_iff {t : Table} {i : Nat} {e : Entry} :
    slotAt t i = some e ↔ t.slots[i]? = some (some e) := by
  rw [slotAt, List.getD_eq_getElem?_getD]
  cases h : t.slots[i]? with
  | none => simp
  | some x => cases x <;> simp

theorem present_iff {t : Table} {k : Nat} :
    Present t k ↔ ∃ i v, slotAt t i = some (k, v) := by
  unfold Present tblKeys
  constructor
  · intro h
    rcases List.mem_map.mp h with ⟨e, he, hek⟩
    rcases List.mem_filterMap.mp he with ⟨x, hx, hxe⟩
    rcases List.mem_iff_getElem?.mp hx with ⟨i, hi⟩
    refine ⟨i, e.2, slotAt_some_iff.mpr ?_⟩
    have hx' : x = some e := hxe
    rw [hi, hx']
    have : e = (k, e.2) := by
      cases e; simp_all
    rw [← this]
  · rintro ⟨i, v, hiv⟩
    refine List.mem_map.mpr ⟨(k, v), ?_, rfl⟩
    refine List.mem_filterMap.mpr ⟨some (k, v), ?_, rfl⟩
    exact List.mem_iff_getElem?.mpr ⟨i, slotAt_some_iff.mp hiv⟩

theorem findSlot_eq_of_mem (hf : Nat → Nat) {t : Table} {k i v : Nat}
    (hsz : 0 < t.size) (hlen : t.slots.length = t.size)
    (hslot : slotAt t i = some (k, v))
    (huniq : ∀ j v', slotAt t j = some (k, v') → j = i)
    (hprobe : ∀ j, j < t.size →
      dist t.size (hashIdx hf t k) j < dist t.size (hashIdx hf t k) i →
      slotAt t j ≠ none) :
    findSlot hf t k = i := by
  have hi : i < t.size := hlen ▸ slotAt_lt_of_some hslot
  have hs : hashIdx hf t k < t.size := hashIdx_lt hf hsz k
  set s := hashIdx hf t k with hsdef
  have hd : dist t.size s i < t.size := dist_lt hs hi
  have hadd : (s + dist t.size s i) % t.size = i := add_dist hs hi
  have hstop : IsStop t k ((s + dist t.size s i) % t.size) := by
    rw [hadd]; exact Or.inr ⟨v, hslot⟩
  have hbefore : ∀ d', d' < dist t.size s i →
      ¬ IsStop t k ((s + d') % t.size) := by
    intro d' hd' hstop'
    have hd'n : d' < t.size := by omega
    have hj : dist t.size s ((s + d') % t.size) = d' := dist_add hs hd'n
    rcases hstop' with hnone | ⟨v', hv'⟩
    · exact hprobe _ (wrap_lt hsz _) (by omega) hnone
    · have := huniq _ _ hv'
      rw [this] at hj
      omega
  have hrun := findSlotGo_hit t k s hs hd hstop hbefore t.size 0 s
    (by omega) (Nat.zero_le _) (by rw [Nat.add_zero, Nat.mod_eq_of_lt hs])
  rw [findSlot, ← hsdef, hrun, hadd]

theorem findSlot_empty_spec (hf : Nat → Nat) {t : Table} {k : Nat}
    (hsz : 0 < t.size) (hlen : t.slots.length = t.size)
    (habs : ∀ i v, slotAt t i ≠ some (k, v))
    (hempty : ∃ i, i < t.size ∧ slotAt t i = none) :
    slotAt t (findSlot hf t k) = none ∧ findSlot hf t k < t.size ∧
    ∀ j, j < t.size →
      dist t.size (hashIdx hf t k) j <
        dist t.size (hashIdx hf t k) (findSlot hf t k) →
      slotAt t j ≠ none := by
  have hs : hashIdx hf t k < t.size := hashIdx_lt hf hsz k
  set s := hashIdx hf t k with hsdef
  have hex : ∃ d, slotAt t ((s + d) % t.size) = none := by
    rcases hempty with ⟨i, hi, hnone⟩
    exact ⟨dist t.size s i, by rw [add_dist hs hi]; exact hnone⟩
  set d₀ := Nat.find hex with hd₀def
  have hP : slotAt t ((s + d₀) % t.size) = none := Nat.find_spec hex
  have hd₀ : d₀ < t.size := by
    rcases hempty with ⟨i, hi, hnone⟩
    have : d₀ ≤ dist t.size s i :=
      Nat.find_min' hex (by rw [add_dist hs hi]; exact hnone)
    have := dist_lt hs hi
    omega
  have hbefore : ∀ d', d' < d₀ → ¬ IsStop t k ((s + d') % t.size) := by
    intro d' hd' hstop'
    rcases hstop' with hnone | ⟨v', hv'⟩
    · exact Nat.find_min hex hd' hnone
    · exact habs _ _ hv'
  have hrun := findSlotGo_hit t k s hs hd₀ (Or.inl hP) hbefore t.size 0 s
    (by omega) (Nat.zero_le _) (by rw [Nat.add_zero, Nat.mod_eq_of_lt hs])
  have hfind : findSlot hf t k = (s + d₀) % t.size := by
    rw [findSlot, ← hsdef, hrun]
  refine ⟨by rw [hfind]; exact hP, by rw [hfind]; exact wrap_lt hsz _, ?_⟩
  intro j hj hdj hnone
  rw [hfind, dist_add hs hd₀] at hdj
  have hjd : (s + dist t.size s j) % t.size = j := add_dist hs hj
  exact Nat.find_min hex hdj (by rwa [hjd])

theorem findSlot_eq_hash_of_full (hf : Nat → Nat) {t : Table} {k : Nat}
    (hsz : 0 < t.size) (hlen : t.slots.length = t.size)
    (habs : ∀ i v, slotAt t i ≠ some (k, v))
    (hfull : ∀ i, i < t.size → slotAt t i ≠ none) :
    findSlot hf t k = hashIdx hf t k := by
  have hs : hashIdx hf t k < t.size := hashIdx_lt hf hsz k
  set s := hashIdx hf t k with hsdef
  have hall : ∀ d', d' < t.size → ¬ IsStop t k ((s + d') % t.size) := by
    intro d' hd' hstop'
    rcases hstop' with hnone | ⟨v', hv'⟩
    · exact hfull _ (wrap_lt hsz _) hnone
    · exact habs _ _ hv'
  have hrun := findSlotGo_wrap t k s hs hall t.size 0 s
    (by omega) hsz (by rw [Nat.add_zero, Nat.mod_eq_of_lt hs])
  rw [findSlot, ← hsdef, hrun]

/-! ### Counting occupied slots -/

theorem occ_le (l : List (Option Entry)) :
    (l.filterMap id).length ≤ l.length :=
  List.length_filterMap_le _ _

theorem occ_full_iff (l : List (Option Entry)) :
    (l.filterMap id).length = l.length ↔ ∀ x ∈ l, x ≠ none := by
  induction l with
  | nil => simp
  | cons a l ih =>
    cases a with
    | none =>
      simp only [List.filterMap_cons, id]
      constructor
      · intro h
        have := occ_le l
        simp at h
        omega
      · intro h
        exact absurd rfl (h none (List.mem_cons_self _ _))
    | some e =>
      simp only [List.filterMap_cons, id, List.length_cons]
      constructor
      · intro h x hx
        rcases List.mem_cons.mp hx with rfl | hx'
        · simp
        · exact (ih.mp (by omega)) x hx'
      · intro h
        have := ih.mpr (fun x hx => h x (List.mem_cons_of_mem _ hx))
        omega

theorem exists_empty_of_occ_lt {l : List (Option Entry)}
    (h : (l.filterMap id).length < l.length) :
    ∃ i, i < l.length ∧ l.getD i none = none := by
  by_contra hno
  push_neg at hno
  have hall : ∀ x ∈ l, x ≠ none := by
    intro x hx hxn
    rcases List.mem_iff_getElem?.mp hx with ⟨i, hi⟩
    have hil : i < l.length := by
      by_contra hge
      rw [List.getElem?_eq_none (by omega)] at hi
      exact Option.noConfusion hi
    have : l.getD i none = none := by
      rw [List.getD_eq_getElem?_getD, hi, hxn]; rfl
    exact hno i hil this
  rw [(occ_full_iff l).mpr hall] at h
  omega

theorem full_no_empty {l : List (Option Entry)}
    (h : (l.filterMap id).length = l.length) :
    ∀ i, i < l.length → l.getD i none ≠ none := by
  intro i hi hnone
  have hall := (occ_full_iff l).mp h
  have hmem : l.getD i none ∈ l := by
    rw [List.getD_eq_getElem?_getD]
    cases hg : l[i]? with
    | none =>
      rw [List.getElem?_eq_none_iff] at hg
      omega
    | some x =>
      simpa using List.getElem?_mem hg
  exact hall _ hmem hnone

theorem occ_set_some_of_none {l : List (Option Entry)} {i : Nat} {e : Entry}
    (hi : i < l.length) (h : l.getD i none = none) :
    ((l.set i (some e)).filterMap id).length = (l.filterMap id).length + 1 := by
  induction l generalizing i with
  | nil => simp at hi
  | cons a l ih =>
    cases i with
    | zero =>
      have ha : a = none := by simpa [List.getD] using h
      subst ha
      simp [List.filterMap_cons]
    | succ i =>
      have h' : l.getD i none = none := by simpa [List.getD] using h
      have hi' : i < l.length := by simpa using hi
      cases a with
      | none => simpa [List.filterMap_cons] using ih hi' h'
      | some e' => simpa [List.filterMap_cons] using ih hi' h'

theorem occ_set_none_of_some {l : List (Option Entry)} {i : Nat} {e : Entry}
    (h : l.getD i none = some e) :
    ((l.set i none).filterMap id).length + 1 = (l.filterMap id).length := by
  induction l generalizing i with
  | nil => simp [List.getD] at h
  | cons a l ih =>
    cases i with
    | zero =>
      have ha : a = some e := by simpa [List.getD] using h
      subst ha
      simp [List.filterMap_cons]
    | succ i =>
      have h' : l.getD i none = some e := by simpa [List.getD] using h
      cases a with
      | none => simpa [List.filterMap_cons] using ih h'
      | some e' => simpa [List.filterMap_cons] using ih h'

theorem occ_set_some_of_some {l : List (Option Entry)} {i : Nat} {e e' : Entry}
    (h : l.getD i none = some e') :
    ((l.set i (some e)).filterMap id).length = (l.filterMap id).length := by
  induction l generalizing i with
  | nil => simp [List.getD] at h
  | cons a l ih =>
    cases i with
    | zero =>
      have ha : a = some e' := by simpa [List.getD] using h
      subst ha
      simp [List.filterMap_cons]
    | succ i =>
      have h' : l.getD i none = some e' := by simpa [List.getD] using h
      cases a with
      | none => simpa [List.filterMap_cons] using ih h'
      | some x => simpa [List.filterMap_cons] using ih h'

/-! ### Consequences of well-formedness -/

theorem keyHere_iff {t : Table} {i k : Nat} :
    keyHere t i k = true ↔ ∃ v, slotAt t i = some (k, v) := by
  unfold keyHere
  cases hs : slotAt t i with
  | none => simp
  | some e =>
    cases e with
    | mk a b =>
      simp only [Option.any_some, decide_eq_true_eq]
      constructor
      · rintro rfl; exact ⟨b, rfl⟩
      · rintro ⟨v, hv⟩
        cases hv
        rfl

theorem keyHere_false_iff {t : Table} {i k : Nat} :
    keyHere t i k = false ↔ ∀ v, slotAt t i ≠ some (k, v) := by
  rw [← Bool.not_eq_true, keyHere_iff]
  push_neg
  rfl

theorem absent_iff {t : Table} {k : Nat} :
    ¬ Present t k ↔ ∀ i v, slotAt t i ≠ some (k, v) := by
  rw [present_iff]
  push_neg
  rfl

theorem WF.count_le {hf : Nat → Nat} {t : Table} (hwf : WF hf t) :
    t.count ≤ (t.size : Int) := by
  rw [hwf.count_ord, ← hwf.occ_ord]
  have h1 : occCount t ≤ t.slots.length := occ_le _
  rw [hwf.slots_len] at h1
  exact_mod_cast h1

theorem WF.findSlot_present {hf : Nat → Nat} {t : Table} {k i v : Nat}
    (hwf : WF hf t) (hslot : slotAt t i = some (k, v)) :
    findSlot hf t k = i :=
  findSlot_eq_of_mem hf hwf.size_pos hwf.slots_len hslot
    (fun j v' hj => hwf.uniq j i k v' v hj hslot)
    (hwf.probe i k v hslot)

theorem WF.occ_eq_count {hf : Nat → Nat} {t : Table} (hwf : WF hf t) :
    (occCount t : Int) = t.count := by
  rw [hwf.count_ord, hwf.occ_ord]

/-- Case analysis of `insert` when the key is present: the update branch. -/
theorem insert_present {hf : Nat → Nat} {t : Table} {k i v₀ : Nat}
    (hwf : WF hf t) (hslot : slotAt t i = some (k, v₀)) (v : Nat) :
    insert hf t k v =
      .ok { t with slots := t.slots.set i (some (k, v)),
                   order := moveToEnd t.order k } := by
  have hfind : findSlot hf t k = i := hwf.findSlot_present hslot
  have hkh : keyHere t i k = true := keyHere_iff.mpr ⟨v₀, hslot⟩
  unfold insert
  rw [hfind]
  simp [hkh]

/-- Case analysis of `insert` of an absent key into a non-full table: the
new-insertion branch, landing on the first empty slot of the probe
sequence. -/
theorem insert_absent_notfull {hf : Nat → Nat} {t : Table} {k : Nat}
    (hwf : WF hf t) (habs : ¬ Present t k) (hnf : occCount t < t.size)
    (v : Nat) :
    slotAt t (findSlot hf t k) = none ∧ findSlot hf t k < t.size ∧
    (∀ j, j < t.size →
      dist t.size (hashIdx hf t k) j <
        dist t.size (hashIdx hf t k) (findSlot hf t k) →
      slotAt t j ≠ none) ∧
    insert hf t k v =
      .ok { t with slots := t.slots.set (findSlot hf t k) (some (k, v)),
                   order := t.order ++ [k],
                   count := t.count + 1 } := by
  have habs' := absent_iff.mp habs
  have hempty : ∃ i, i < t.size ∧ slotAt t i = none := by
    have := exists_empty_of_occ_lt (l := t.slots)
      (by rw [hwf.slots_len]; exact hnf)
    rcases this with ⟨i, hi, hnone⟩
    exact ⟨i, by rw [← hwf.slots_len]; exact hi, hnone⟩
  obtain ⟨hnone, hlt, hfirst⟩ :=
    findSlot_empty_spec hf hwf.size_pos hwf.slots_len habs' hempty
  refine ⟨hnone, hlt, hfirst, ?_⟩
  have hkh : keyHere t (findSlot hf t k) k = false :=
    keyHere_false_iff.mpr (fun v' hv' => habs' _ v' hv')
  have hcnt : ¬ (t.size : Int) ≤ t.count := by
    rw [← hwf.occ_eq_count]
    exact_mod_cast Nat.not_le.mpr hnf
  unfold insert
  simp [hkh, hcnt]

/-- Case analysis of `insert` of an absent key into a full table: the
capacity error, raised before any mutation. -/
theorem insert_absent_full {hf : Nat → Nat} {t : Table} {k : Nat}
    (hwf : WF hf t) (habs : ¬ Present t k) (hfull : occCount t = t.size)
    (v : Nat) :
    insert hf t k v = .error .full := by
  have habs' := absent_iff.mp habs
  have hnoempty : ∀ i, i < t.size → slotAt t i ≠ none := by
    intro i hi
    exact full_no_empty (by rw [hwf.slots_len]; exact hfull) i
      (by rw [hwf.slots_len]; exact hi)
  have hfind := findSlot_eq_hash_of_full hf hwf.size_pos hwf.slots_len
    habs' hnoempty
  have hkh : keyHere t (findSlot hf t k) k = false :=
    keyHere_false_iff.mpr (fun v' hv' => habs' _ v' hv')
  have hcnt : (t.size : Int) ≤ t.count := by
    rw [← hwf.occ_eq_count, hfull]
  unfold insert
  simp [hkh, hcnt]

/-! ### The order list under `_move_to_end` -/

theorem moveToEnd_eq {order : List Nat} {k : Nat} (hmem : k ∈ order)
    (hnd : order.Nodup) : moveToEnd order k = order.erase k ++ [k] := by
  unfold moveToEnd
  split
  · next hlast =>
    obtain ⟨l', rfl⟩ := List.getLast?_eq_some_iff.mp hlast
    have hknl : k ∉ l' := by
      have := List.disjoint_of_nodup_append hnd
      intro hmem'
      exact this hmem' (List.mem_singleton_self _)
    rw [List.erase_append_right _ hknl]
    simp
  · next hlast =>
    rfl

theorem moveToEnd_mem {order : List Nat} {k : Nat} (hmem : k ∈ order)
    (hnd : order.Nodup) :
    ∀ a, a ∈ moveToEnd order k ↔ a ∈ order := by
  intro a
  rw [moveToEnd_eq hmem hnd, List.mem_append, List.mem_singleton]
  by_cases ha : a = k
  · subst ha
    simp [hmem]
  · rw [List.mem_erase_of_ne ha]
    simp [ha]

theorem moveToEnd_nodup {order : List Nat} {k : Nat} (hmem : k ∈ order)
    (hnd : order.Nodup) : (moveToEnd order k).Nodup := by
  rw [moveToEnd_eq hmem hnd]
  refine List.Nodup.append (hnd.erase k) (List.nodup_singleton k) ?_
  intro a ha hak
  rw [List.mem_singleton] at hak
  subst hak
  exact (List.Nodup.mem_erase_iff hnd).mp ha |>.1 rfl

theorem moveToEnd_length {order : List Nat} {k : Nat} (hmem : k ∈ order)
    (hnd : order.Nodup) : (moveToEnd order k).length = order.length := by
  rw [moveToEnd_eq hmem hnd, List.length_append, List.length_singleton,
    List.length_erase_of_mem hmem]
  have : 0 < order.length := List.length_pos.mpr (by
    intro h
    subst h
    simp at hmem)
  omega

/-! ### Transfer of the probing invariants along key-preserving updates -/

theorem hashIdx_congr (hf : Nat → Nat) {t t' : Table} (h : t'.size = t.size)
    (k : Nat) : hashIdx hf t' k = hashIdx hf t k := by
  unfold hashIdx
  rw [h]

theorem keysEq_none_iff {t t' : Table}
    (hk : ∀ j, (slotAt t' j).map Prod.fst = (slotAt t j).map Prod.fst)
    (j : Nat) : slotAt t' j = none ↔ slotAt t j = none := by
  have := hk j
  cases h1 : slotAt t' j <;> cases h2 : slotAt t j <;> simp_all

theorem keysEq_some {t t' : Table}
    (hk : ∀ j, (slotAt t' j).map Prod.fst = (slotAt t j).map Prod.fst)
    {j k v : Nat} (h : slotAt t' j = some (k, v)) :
    ∃ v', slotAt t j = some (k, v') := by
  have hkj := hk j
  rw [h] at hkj
  cases h2 : slotAt t j with
  | none => rw [h2] at hkj; simp at hkj
  | some e =>
    rw [h2] at hkj
    cases e with
    | mk a b =>
      simp at hkj
      subst hkj
      exact ⟨b, rfl⟩

theorem uniq_of_keysEq {t t' : Table}
    (hk : ∀ j, (slotAt t' j).map Prod.fst = (slotAt t j).map Prod.fst)
    (hu : Uniq t) : Uniq t' := by
  intro i j k vi vj hi hj
  obtain ⟨vi', hi'⟩ := keysEq_some hk hi
  obtain ⟨vj', hj'⟩ := keysEq_some hk hj
  exact hu i j k vi' vj' hi' hj'

theorem probeOK_of_keysEq {hf : Nat → Nat} {t t' : Table}
    (hsz : t'.size = t.size)
    (hk : ∀ j, (slotAt t' j).map Prod.fst = (slotAt t j).map Prod.fst)
    (hp : ProbeOK hf t) : ProbeOK hf t' := by
  intro i k v hi j hj hd hnone
  obtain ⟨v', hi'⟩ := keysEq_some hk hi
  rw [keysEq_none_iff hk j] at hnone
  rw [hashIdx_congr hf hsz, hsz] at hd
  rw [hsz] at hj
  exact hp i k v' hi' j hj hd hnone

theorem escape_of_keysEq {hf : Nat → Nat} {t t' : Table}
    (hsz : t'.size = t.size) (hoc : occCount t' = occCount t)
    (hk : ∀ j, (slotAt t' j).map Prod.fst = (slotAt t j).map Prod.fst)
    (he : Escape hf t) : Escape hf t' := by
  intro hfull
  rw [hoc, hsz] at hfull
  rcases he hfull with ⟨m, hm, hesc⟩
  refine ⟨m, by rw [hsz]; exact hm, ?_⟩
  intro i k v hi
  obtain ⟨v', hi'⟩ := keysEq_some hk hi
  rw [hashIdx_congr hf hsz, hsz]
  exact hesc i k v' hi'

/-! ### `insert` preserves well-formedness -/

theorem wf_insert_update {hf : Nat → Nat} {t : Table} {k i v₀ v : Nat}
    (hwf : WF hf t) (hslot : slotAt t i = some (k, v₀)) :
    WF hf { t with slots := t.slots.set i (some (k, v)),
                   order := moveToEnd t.order k } := by
  set t' : Table := { t with slots := t.slots.set i (some (k, v)),
                             order := moveToEnd t.order k } with ht'
  have hi : i < t.slots.length := slotAt_lt_of_some hslot
  have hmem : k ∈ t.order := (hwf.mem_iff k).mpr ⟨i, v₀, hslot⟩
  have hslot' : ∀ j, slotAt t' j = if j = i then some (k, v) else slotAt t j := by
    intro j
    by_cases hj : j = i
    · rw [if_pos hj, hj]
      exact getD_set_self hi
    · rw [if_neg hj]
      exact getD_set_ne (fun h => hj h.symm)
  have hkeys : ∀ j, (slotAt t' j).map Prod.fst = (slotAt t j).map Prod.fst := by
    intro j
    rw [hslot' j]
    by_cases hj : j = i
    · rw [if_pos hj, hj, hslot]
      rfl
    · rw [if_neg hj]
  have hocc : occCount t' = occCount t := occ_set_some_of_some hslot
  refine ⟨hwf.size_pos, ?_, ?_, ?_, ?_, ?_, ?_, ?_, ?_⟩
  · show (t.slots.set i (some (k, v))).length = t.size
    rw [List.length_set]
    exact hwf.slots_len
  · show t.count = ((moveToEnd t.order k).length : Int)
    rw [moveToEnd_length hmem hwf.nodup]
    exact hwf.count_ord
  · show occCount t' = (moveToEnd t.order k).length
    rw [moveToEnd_length hmem hwf.nodup, hocc, hwf.occ_ord]
  · exact moveToEnd_nodup hmem hwf.nodup
  · intro k'
    show k' ∈ moveToEnd t.order k ↔ _
    rw [moveToEnd_mem hmem hwf.nodup, hwf.mem_iff k']
    constructor
    · rintro ⟨j, v', hj⟩
      by_cases hji : j = i
      · have hj2 : slotAt t i = some (k', v') := hji ▸ hj
        rw [hslot] at hj2
        rw [Option.some_inj, Prod.mk.injEq] at hj2
        refine ⟨i, v, ?_⟩
        rw [hslot' i, if_pos rfl, hj2.1]
      · exact ⟨j, v', by rw [hslot' j, if_neg hji]; exact hj⟩
    · rintro ⟨j, v', hj⟩
      rw [hslot' j] at hj
      by_cases hji : j = i
      · rw [if_pos hji, Option.some_inj, Prod.mk.injEq] at hj
        exact ⟨i, v₀, by rw [← hj.1]; exact hslot⟩
      · rw [if_neg hji] at hj
        exact ⟨j, v', hj⟩
  · exact uniq_of_keysEq hkeys hwf.uniq
  · exact probeOK_of_keysEq (show t'.size = t.size from rfl) hkeys hwf.probe
  · exact escape_of_keysEq (show t'.size = t.size from rfl) hocc hkeys hwf.escape

theorem wf_insert_new {hf : Nat → Nat} {t : Table} {k v r : Nat}
    (hwf : WF hf t) (habs : ∀ i v', slotAt t i ≠ some (k, v'))
    (hnone : slotAt t r = none) (hr : r < t.size)
    (hfirst : ∀ j, j < t.size →
      dist t.size (hashIdx hf t k) j < dist t.size (hashIdx hf t k) r →
      slotAt t j ≠ none) :
    WF hf { t with slots := t.slots.set r (some (k, v)),
                   order := t.order ++ [k],
                   count := t.count + 1 } := by
  set t' : Table := { t with slots := t.slots.set r (some (k, v)),
                             order := t.order ++ [k],
                             count := t.count + 1 } with ht'
  have hrlen : r < t.slots.length := by rw [hwf.slots_len]; exact hr
  have hknot : k ∉ t.order := by
    intro hmem
    obtain ⟨j, v', hj⟩ := (hwf.mem_iff k).mp hmem
    exact habs j v' hj
  have hslot' : ∀ j, slotAt t' j = if j = r then some (k, v) else slotAt t j := by
    intro j
    by_cases hj : j = r
    · rw [if_pos hj, hj]
      exact getD_set_self hrlen
    · rw [if_neg hj]
      exact getD_set_ne (fun h => hj h.symm)
  have hocc : occCount t' = occCount t + 1 := occ_set_some_of_none hrlen hnone
  have hsz' : t'.size = t.size := rfl
  have hhash : ∀ k', hashIdx hf t' k' = hashIdx hf t k' := fun k' => rfl
  refine ⟨hwf.size_pos, ?_, ?_, ?_, ?_, ?_, ?_, ?_, ?_⟩
  · show (t.slots.set r (some (k, v))).length = t.size
    rw [List.length_set]
    exact hwf.slots_len
  · show t.count + 1 = ((t.order ++ [k]).length : Int)
    rw [List.length_append, List.length_singleton, hwf.count_ord]
    push_cast
    ring
  · show occCount t' = (t.order ++ [k]).length
    rw [hocc, List.length_append, List.length_singleton, hwf.occ_ord]
  · exact List.Nodup.append hwf.nodup (List.nodup_singleton k)
      (fun a ha hak => hknot ((List.mem_singleton.mp hak) ▸ ha))
  · intro k'
    show k' ∈ t.order ++ [k] ↔ _
    rw [List.mem_append, List.mem_singleton]
    constructor
    · rintro (hmem | rfl)
      · obtain ⟨j, v', hj⟩ := (hwf.mem_iff k').mp hmem
        have hjr : j ≠ r := by
          intro hjr
          rw [hjr, hnone] at hj
          exact Option.noConfusion hj
        exact ⟨j, v', by rw [hslot' j, if_neg hjr]; exact hj⟩
      · exact ⟨r, v, by rw [hslot' r, if_pos rfl]⟩
    · rintro ⟨j, v', hj⟩
      rw [hslot' j] at hj
      by_cases hjr : j = r
      · rw [if_pos hjr, Option.some_inj, Prod.mk.injEq] at hj
        right
        exact hj.1.symm
      · rw [if_neg hjr] at hj
        left
        exact (hwf.mem_iff k').mpr ⟨j, v', hj⟩
  · intro a b k' va vb ha hb
    rw [hslot' a] at ha
    rw [hslot' b] at hb
    by_cases haa : a = r <;> by_cases hbb : b = r
    · rw [haa, hbb]
    · rw [if_pos haa, Option.some_inj, Prod.mk.injEq] at ha
      rw [if_neg hbb] at hb
      rw [← ha.1] at hb
      exact absurd hb (habs b vb)
    · rw [if_neg haa] at ha
      rw [if_pos hbb, Option.some_inj, Prod.mk.injEq] at hb
      rw [← hb.1] at ha
      exact absurd ha (habs a va)
    · rw [if_neg haa] at ha
      rw [if_neg hbb] at hb
      exact hwf.uniq a b k' va vb ha hb
  · intro j k' v' hj j' hj' hd hnone'
    rw [hslot' j] at hj
    rw [hslot' j'] at hnone'
    have hj'r : j' ≠ r := by
      intro hj'r
      rw [if_pos hj'r] at hnone'
      exact Option.noConfusion hnone'
    rw [if_neg hj'r] at hnone'
    rw [hhash, hsz'] at hd
    rw [hsz'] at hj'
    by_cases hjr : j = r
    · rw [if_pos hjr, Option.some_inj, Prod.mk.injEq] at hj
      rw [← hj.1, hjr] at hd
      exact hfirst j' hj' hd hnone'
    · rw [if_neg hjr] at hj
      exact hwf.probe j k' v' hj j' hj' hd hnone'
  · intro _
    refine ⟨r, by rw [hsz']; exact hr, ?_⟩
    intro j k' v' hj
    rw [hslot' j] at hj
    rw [hhash, hsz']
    by_cases hjr : j = r
    · rw [if_pos hjr, Option.some_inj, Prod.mk.injEq] at hj
      rw [← hj.1, hjr]
      omega
    · rw [if_neg hjr] at hj
      intro hd
      exact hwf.probe j k' v' hj r hr hd hnone

theorem wf_insert_ok {hf : Nat → Nat} {t t' : Table} {k v : Nat}
    (hwf : WF hf t) (h : insert hf t k v = .ok t') : WF hf t' := by
  by_cases hp : Present t k
  · obtain ⟨i, v₀, hslot⟩ := present_iff.mp hp
    rw [insert_present hwf hslot v] at h
    injection h with h'
    rw [← h']
    exact wf_insert_update hwf hslot
  · have hne := absent_iff.mp hp
    rcases Nat.lt_or_ge (occCount t) t.size with hlt | hge
    · obtain ⟨hnone, hr, hfirst, heq⟩ := insert_absent_notfull hwf hp hlt v
      rw [heq] at h
      injection h with h'
      rw [← h']
      exact wf_insert_new hwf hne hnone hr hfirst
    · have hfull : occCount t = t.size := by
        have : occCount t ≤ t.slots.length := occ_le _
        rw [hwf.slots_len] at this
        omega
      rw [insert_absent_full hwf hp hfull v] at h
      exact absurd h (by simp)

/-! ### Cluster repair: the rehash loop -/

theorem dist_ofs {n start : Nat} (hst : start < n) {a b : Nat} (ha : a < n)
    (hb : b < n) :
    dist n ((start + a) % n) ((start + b) % n) = dist n a b := by
  rw [wrap_eq hst ha, wrap_eq hst hb]
  unfold dist
  split_ifs <;> omega

theorem dist_eq_zero_iff {n a b : Nat} (ha : a < n) (hb : b < n) :
    dist n a b = 0 ↔ a = b := by
  unfold dist
  split_ifs <;> omega

theorem rehashGo_spec (hf : Nat → Nat) (t0 : Table) (start M : Nat)
    (hN : 0 < t0.size) (hlen0 : t0.slots.length = t0.size)
    (hstart : start < t0.size)
    (h0none : slotAt t0 start = none)
    (hprobe0 : ∀ i k v, slotAt t0 i = some (k, v) → ∀ j, j < t0.size →
      dist t0.size (hashIdx hf t0 k) j < dist t0.size (hashIdx hf t0 k) i →
      j ≠ start → slotAt t0 j ≠ none)
    (hM : M < t0.size)
    (hcase : (1 ≤ M ∧ slotAt t0 ((start + M) % t0.size) = none ∧
              ∀ o, 1 ≤ o → o < M → slotAt t0 ((start + o) % t0.size) ≠ none)
           ∨ (∀ o, 1 ≤ o → o < t0.size →
              slotAt t0 ((start + o) % t0.size) ≠ none))
    (havoid : ∀ i k v, slotAt t0 i = some (k, v) →
      ¬ dist t0.size (hashIdx hf t0 k) ((start + M) % t0.size) <
        dist t0.size (hashIdx hf t0 k) i) :
    ∀ fuel d t, fuel + d = t0.size → 1 ≤ d →
      RehashInv hf t0 start M d t →
      RehashOut hf t0 (rehashGo hf start fuel ((start + d) % t0.size) t) := by
  have hout : ∀ d t, RehashInv hf t0 start M d t →
      (∀ i k v, slotAt t i = some (k, v) →
        dist t0.size start i < d ∨ M < dist t0.size start i) →
      RehashOut hf t0 t := by
    intro d t hinv hnokey
    refine ⟨hinv.size_eq, hinv.len_eq, hinv.order_eq, hinv.count_eq,
      hinv.uniq, hinv.entries, hinv.occ, ?_⟩
    intro i k v hi j hj hdij hnone
    exact (hinv.good i k v hi (hnokey i k v hi)).1 j
      (by rwa [hinv.size_eq] at hj)
      (by rwa [hashIdx_congr hf hinv.size_eq, hinv.size_eq] at hdij) hnone
  intro fuel
  induction fuel with
  | zero =>
    intro d t hfd hd hinv
    simp only [rehashGo]
    refine hout d t hinv ?_
    intro i k v hi
    left
    have hi' : i < t0.size := by
      have := slotAt_lt_of_some hi
      rw [hinv.len_eq, hlen0] at this
      exact this
    have := dist_lt hstart hi'
    omega
  | succ fuel ih =>
    intro d t hfd hd hinv
    have hdN : d < t0.size := by omega
    set p := (start + d) % t0.size with hp
    have hpN : p < t0.size := wrap_lt hN _
    have hplen : p < t.slots.length := by rw [hinv.len_eq, hlen0]; exact hpN
    have hδp : dist t0.size start p = d := dist_add hstart hdN
    cases hslotp : slotAt t p with
    | none =>
      -- The walk has reached an empty slot and stops.  This is only
      -- possible in the first-empty case, exactly at offset `M`.
      simp only [rehashGo, hslotp]
      have h0p : slotAt t0 p = none := by
        rw [← hinv.frame d le_rfl hdN]
        exact hslotp
      have hdM : d = M := by
        rcases hcase with ⟨hM1, hMnone, hMmin⟩ | hfull
        · rcases hinv.bound with hdM' | hfull
          · rcases Nat.eq_or_lt_of_le hdM' with h | h
            · exact h
            · exact absurd h0p (hMmin d hd h)
          · exact absurd h0p (hfull d hd hdN)
        · exact absurd h0p (hfull d hd hdN)
      refine hout d t hinv ?_
      intro i k v hi
      have hi' : i < t0.size := by
        have := slotAt_lt_of_some hi
        rw [hinv.len_eq, hlen0] at this
        exact this
      have hne : dist t0.size start i ≠ d := by
        intro h
        have : i = p := by
          rw [hp, ← h]
          exact (add_dist hstart hi').symm
        rw [this, hslotp] at hi
        exact Option.noConfusion hi
      have := dist_lt hstart hi'
      omega
    | some e =>
      obtain ⟨k, v⟩ := e
      simp only [rehashGo, hslotp]
      set t1 : Table := { size := t.size, slots := t.slots.set p none,
                          count := t.count - 1, order := t.order } with ht1
      set ni := findSlot hf t1 k with hni
      set t2 : Table := { size := t.size,
                          slots := (t.slots.set p none).set ni (some (k, v)),
                          count := t.count - 1 + 1, order := t.order } with ht2
      have hts : t.size = t0.size := hinv.size_eq
      have htlen : t.slots.length = t0.size := by rw [hinv.len_eq, hlen0]
      -- the node at the walk position sits at its original slot
      have hx0 : slotAt t0 p = some (k, v) := by
        rw [← hinv.frame d le_rfl hdN]
        exact hslotp
      -- clearing the slot
      have hslot1 : ∀ j, slotAt t1 j = if j = p then none else slotAt t j := by
        intro j
        by_cases hj : j = p
        · rw [if_pos hj, hj]
          exact getD_set_self hplen
        · rw [if_neg hj]
          exact getD_set_ne (fun h => hj h.symm)
      have ht1p : slotAt t1 p = none := by rw [hslot1 p, if_pos rfl]
      have habs1 : ∀ j v', slotAt t1 j ≠ some (k, v') := by
        intro j v' hj
        rw [hslot1 j] at hj
        by_cases hjp : j = p
        · rw [if_pos hjp] at hj
          exact Option.noConfusion hj
        · rw [if_neg hjp] at hj
          exact hjp (hinv.uniq j p k v' v hj hslotp)
      have hsz1 : 0 < t1.size := by
        show 0 < t.size
        rw [hts]
        exact hN
      have hlen1 : t1.slots.length = t1.size := by
        show (t.slots.set p none).length = t.size
        rw [List.length_set, htlen, hts]
      -- re-seating via `_find_slot`
      obtain ⟨hniNone, hniLt, hniFirst⟩ :=
        findSlot_empty_spec hf (t := t1) (k := k) hsz1 hlen1 habs1
          ⟨p, by show p < t.size; rw [hts]; exact hpN, ht1p⟩
      have hniLt' : ni < t0.size := by rw [← hts]; exact hniLt
      set s := hashIdx hf t0 k with hs
      have hsN : s < t0.size := hashIdx_lt hf hN k
      have hs1eq : hashIdx hf t1 k = s := by
        show hf k % t.size = hf k % t0.size
        rw [hts]
      set σ := dist t0.size start s with hσ
      have hσN : σ < t0.size := dist_lt hstart hsN
      have hsofs : (start + σ) % t0.size = s := add_dist hstart hsN
      set δni := dist t0.size start ni with hδnidef
      have hδniN : δni < t0.size := dist_lt hstart hniLt'
      have hniofs : (start + δni) % t0.size = ni := add_dist hstart hniLt'
      have hinj : ∀ a b, a < t0.size → b < t0.size →
          dist t0.size start a = dist t0.size start b → a = b := by
        intro a b ha hb hab
        rw [← add_dist hstart ha, hab, add_dist hstart hb]
      have hniFirst' : ∀ j, j < t0.size →
          dist t0.size s j < dist t0.size s ni → slotAt t1 j ≠ none := by
        intro j hj hdj
        apply hniFirst j
        · show j < t.size
          rw [hts]
          exact hj
        · rw [hs1eq]
          show dist t.size s j < dist t.size s ni
          rw [hts]
          exact hdj
      have hoffS : ∀ j, j < t0.size →
          dist t0.size s j = dist t0.size σ (dist t0.size start j) := by
        intro j hj
        conv_lhs => rw [← add_dist hstart hj, ← hsofs]
        rw [dist_ofs hstart hσN (dist_lt hstart hj)]
      have hoffSP : dist t0.size s p = dist t0.size σ d := by
        rw [hoffS p hpN, hδp]
      have hoffSNi : dist t0.size s ni = dist t0.size σ δni := by
        rw [hoffS ni hniLt']
      have hoffSM : dist t0.size s ((start + M) % t0.size) =
          dist t0.size σ M := by
        rw [← hsofs, dist_ofs hstart hσN hM]
      -- the probe path of the removed node avoids the boundary slot
      have hxavoid := havoid p k v hx0
      rw [hoffSM, hoffSP] at hxavoid
      have hple : ¬ dist t0.size s p < dist t0.size s ni := by
        intro hlt
        exact hniFirst' p hpN hlt ht1p
      have hpleOfs : ¬ dist t0.size σ d < dist t0.size σ δni := by
        rwa [hoffSP, hoffSNi] at hple
      -- classification of the hash offset of the removed node
      have hbig : (σ ≤ d ∧ σ ≤ δni) ∨ (M < σ ∧ d ≤ M) := by
        by_cases hσd : σ ≤ d
        · left
          refine ⟨hσd, ?_⟩
          unfold dist at hpleOfs
          split_ifs at hpleOfs <;> omega
        · right
          unfold dist at hxavoid
          split_ifs at hxavoid <;> omega
      -- the re-seated node lands at walk offset at most `d`
      have hδniLe : δni ≤ d := by
        rcases hbig with ⟨hσd, hσni⟩ | ⟨hMσ, hdM⟩
        · unfold dist at hpleOfs
          split_ifs at hpleOfs <;> omega
        · by_contra hgt
          push_neg at hgt
          rcases Nat.lt_or_ge δni σ with hlt | hge
          · unfold dist at hpleOfs
            split_ifs at hpleOfs <;> omega
          · -- ni would lie in the untouched occupied stretch
            have hnis : ni ≠ start := by
              intro h
              rw [h] at hδnidef
              rw [dist_self] at hδnidef
              omega
            have h0occ : slotAt t0 ni ≠ none := by
              apply hprobe0 p k v hx0 ni hniLt' ?_ hnis
              rw [hoffSNi, hoffSP]
              unfold dist
              split_ifs <;> omega
            have htEq : slotAt t ni = slotAt t0 ni := by
              have := hinv.frameTail δni (by omega) hδniN
              rwa [hniofs] at this
            have hniP : ni ≠ p := by
              intro h
              rw [h, hδp] at hδnidef
              omega
            rw [hslot1 ni, if_neg hniP, htEq] at hniNone
            exact h0occ hniNone
      -- description of the post-step slot array
      have hnilent1 : ni < t1.slots.length := by
        rw [hlen1]
        exact hniLt
      have hslot2 : ∀ j, slotAt t2 j =
          if j = ni then some (k, v) else slotAt t1 j := by
        intro j
        by_cases hj : j = ni
        · rw [if_pos hj, hj]
          exact getD_set_self hnilent1
        · rw [if_neg hj]
          exact getD_set_ne (fun h => hj h.symm)
      have hslot2' : ∀ j, slotAt t2 j =
          if j = ni then some (k, v) else if j = p then none
          else slotAt t j := by
        intro j
        rw [hslot2 j]
        by_cases hj : j = ni
        · rw [if_pos hj, if_pos hj]
        · rw [if_neg hj, if_neg hj, hslot1 j]
      -- bookkeeping shared by both cases
      have hlen2 : t2.slots.length = t0.slots.length := by
        show ((t.slots.set p none).set ni (some (k, v))).length =
          t0.slots.length
        rw [List.length_set, List.length_set, hinv.len_eq]
      have hcount2 : t2.count = t0.count := by
        show t.count - 1 + 1 = t0.count
        have := hinv.count_eq
        omega
      have hocc2 : occCount t2 = occCount t0 := by
        have h2 : occCount t2 = occCount t1 + 1 :=
          occ_set_some_of_none hnilent1 hniNone
        have h1 : occCount t1 + 1 = occCount t :=
          occ_set_none_of_some hslotp
        have := hinv.occ
        omega
      have hent2 : ∀ k' v', (∃ i, slotAt t2 i = some (k', v')) ↔
          (∃ i, slotAt t0 i = some (k', v')) := by
        intro k' v'
        rw [← hinv.entries k' v']
        constructor
        · rintro ⟨i, hi⟩
          rw [hslot2' i] at hi
          by_cases hiN : i = ni
          · rw [if_pos hiN] at hi
            exact ⟨p, by rw [hslotp]; exact hi⟩
          · rw [if_neg hiN] at hi
            by_cases hiP : i = p
            · rw [if_pos hiP] at hi
              exact absurd hi (by simp)
            · rw [if_neg hiP] at hi
              exact ⟨i, hi⟩
        · rintro ⟨i, hi⟩
          by_cases hiP : i = p
          · rw [hiP, hslotp] at hi
            exact ⟨ni, by rw [hslot2' ni, if_pos rfl]; exact hi⟩
          · have hiN : i ≠ ni := by
              intro h
              by_cases hnp : ni = p
              · exact hiP (h.trans hnp)
              · rw [hslot1 ni, if_neg hnp] at hniNone
                rw [h, hniNone] at hi
                exact Option.noConfusion hi
            exact ⟨i, by rw [hslot2' i, if_neg hiN, if_neg hiP]; exact hi⟩
      have huniq2 : Uniq t2 := by
        intro a b k' va vb ha hb
        rw [hslot2' a] at ha
        rw [hslot2' b] at hb
        by_cases haN : a = ni
        · by_cases hbN : b = ni
          · rw [haN, hbN]
          · rw [if_pos haN, Option.some_inj, Prod.mk.injEq] at ha
            rw [if_neg hbN] at hb
            by_cases hbP : b = p
            · rw [if_pos hbP] at hb
              exact absurd hb (by simp)
            · rw [if_neg hbP] at hb
              exact absurd (hinv.uniq b p k' vb v hb (ha.1 ▸ hslotp)) hbP
        · rw [if_neg haN] at ha
          by_cases haP : a = p
          · rw [if_pos haP] at ha
            exact absurd ha (by simp)
          · rw [if_neg haP] at ha
            by_cases hbN : b = ni
            · rw [if_pos hbN, Option.some_inj, Prod.mk.injEq] at hb
              exact absurd (hinv.uniq a p k' va v ha (hb.1 ▸ hslotp)) haP
            · rw [if_neg hbN] at hb
              by_cases hbP : b = p
              · rw [if_pos hbP] at hb
                exact absurd hb (by simp)
              · rw [if_neg hbP] at hb
                exact hinv.uniq a b k' va vb ha hb
      -- the step is finished; two cases on the walk position
      have hinv2 : RehashInv hf t0 start M (d + 1) t2 := by
        by_cases hdM : d ≤ M
        · -- main case: the walk is inside the dirty stretch
          refine ⟨hts, hlen2, hinv.order_eq, hcount2, huniq2, hent2, hocc2,
            ?_, ?_, ?_, ?_⟩
          · -- frame
            intro o ho hoN
            have hne1 : (start + o) % t0.size ≠ ni := by
              intro h
              have := dist_add hstart hoN
              rw [h] at this
              omega
            have hne2 : (start + o) % t0.size ≠ p := by
              intro h
              rw [hp] at h
              have := wrap_inj hstart hoN hdN h
              omega
            rw [hslot2' _, if_neg hne1, if_neg hne2]
            exact hinv.frame o (by omega) hoN
          · -- frameTail
            intro o ho hoN
            have hne1 : (start + o) % t0.size ≠ ni := by
              intro h
              have := dist_add hstart hoN
              rw [h] at this
              omega
            have hne2 : (start + o) % t0.size ≠ p := by
              intro h
              rw [hp] at h
              have := wrap_inj hstart hoN hdN h
              omega
            rw [hslot2' _, if_neg hne1, if_neg hne2]
            exact hinv.frameTail o ho hoN
          · -- good
            intro i k' v' hi hcond
            rw [hslot2' i] at hi
            by_cases hiN : i = ni
            · rw [if_pos hiN] at hi
              rw [Option.some_inj, Prod.mk.injEq] at hi
              obtain ⟨hkk, hvv⟩ := hi
              subst hkk
              constructor
              · intro j hj hdj hnone
                have hjni : j ≠ ni := by
                  intro h
                  rw [h, hiN] at hdj
                  omega
                rw [hslot2 j, if_neg hjni] at hnone
                rw [hiN] at hdj
                exact hniFirst' j hj hdj hnone
              · intro j hj hdj hbad
                rw [hiN] at hdj
                rw [← hs, hoffS j hj, hoffSNi] at hdj
                have hδjN : dist t0.size start j < t0.size :=
                  dist_lt hstart hj
                obtain ⟨hb1, hb2⟩ := hbad
                generalize hgen : dist t0.size start j = δj at hdj hb1 hb2 hδjN
                rcases hbig with ⟨h1, h2⟩ | ⟨h1, h2⟩ <;>
                  (unfold dist at hdj; split_ifs at hdj <;> omega)
            · rw [if_neg hiN] at hi
              by_cases hiP : i = p
              · rw [if_pos hiP] at hi
                exact absurd hi (by simp)
              · rw [if_neg hiP] at hi
                have hiT0 : i < t0.size := by
                  have := slotAt_lt_of_some hi
                  rw [htlen] at this
                  exact this
                have hδid : dist t0.size start i ≠ d := by
                  intro h
                  exact hiP (hinj i p hiT0 hpN (by rw [h, hδp]))
                have hcond' : dist t0.size start i < d ∨
                    M < dist t0.size start i := by omega
                obtain ⟨hprobeY, havoidY⟩ := hinv.good i k' v' hi hcond'
                constructor
                · intro j hj hdj hnone
                  rw [hslot2' j] at hnone
                  by_cases hjN : j = ni
                  · rw [if_pos hjN] at hnone
                    exact Option.noConfusion hnone
                  · rw [if_neg hjN] at hnone
                    by_cases hjP : j = p
                    · have := havoidY j hj hdj
                      rw [hjP, hδp] at this
                      exact this ⟨le_rfl, hdM⟩
                    · rw [if_neg hjP] at hnone
                      exact hprobeY j hj hdj hnone
                · intro j hj hdj hbad
                  exact havoidY j hj hdj ⟨by omega, hbad.2⟩
          · -- bound
            rcases hcase with ⟨hM1, hMnone, hMmin⟩ | hfull
            · left
              rcases Nat.eq_or_lt_of_le hdM with hdMeq | hdMlt
              · exfalso
                have h1 := hinv.frame M (by omega) hM
                rw [hMnone] at h1
                have h2 : p = (start + M) % t0.size := by rw [hp, hdMeq]
                rw [← h2] at h1
                exact Option.noConfusion (hslotp.symm.trans h1)
              · omega
            · right
              exact hfull
        · -- tail case: past the boundary the node goes straight back
          push_neg at hdM
          have hMσd : M < σ ∧ σ ≤ d := by
            rcases hbig with ⟨h1, h2⟩ | ⟨h1, h2⟩
            · refine ⟨?_, h1⟩
              unfold dist at hxavoid
              split_ifs at hxavoid <;> omega
            · omega
          -- slots between the hash and the walk position are untouched
          -- and occupied, so the node re-seats into its own slot
          have hocc_tail : ∀ δ, σ ≤ δ → δ < d → slotAt t1 ((start + δ) % t0.size) ≠ none := by
            intro δ hδ1 hδ2 hnone
            have hδN : δ < t0.size := by omega
            have hjne : (start + δ) % t0.size ≠ p := by
              intro h
              rw [hp] at h
              have := wrap_inj hstart hδN hdN h
              omega
            rw [hslot1 _, if_neg hjne] at hnone
            have hframe := hinv.frameTail δ (by omega) hδN
            rw [hframe] at hnone
            have hjs : (start + δ) % t0.size ≠ start := by
              apply wrap_ne_self hstart (by omega) hδN
            apply hprobe0 p k v hx0 ((start + δ) % t0.size)
              (wrap_lt hN _) ?_ hjs hnone
            rw [hoffS _ (wrap_lt hN _), hoffSP, dist_add hstart hδN]
            unfold dist
            split_ifs <;> omega
          have hniP : ni = p := by
            have hσδni : σ ≤ δni := by
              rcases hbig with ⟨h1, h2⟩ | ⟨h1, h2⟩
              · exact h2
              · omega
            rcases Nat.eq_or_lt_of_le hδniLe with h | h
            · apply hinj ni p hniLt' hpN
              rw [hδp, ← hδnidef, h]
            · have hx := hocc_tail δni hσδni h
              rw [hniofs] at hx
              exact absurd hniNone hx
          have hpw : ∀ j, slotAt t2 j = slotAt t j := by
            intro j
            rw [hslot2' j]
            by_cases hj : j = ni
            · rw [if_pos hj, hj, hniP, hslotp]
            · rw [if_neg hj, if_neg (by rw [← hniP]; exact hj)]
          refine ⟨hts, hlen2, hinv.order_eq, hcount2, huniq2, hent2, hocc2,
            ?_, ?_, ?_, ?_⟩
          · intro o ho hoN
            rw [hpw]
            exact hinv.frame o (by omega) hoN
          · intro o ho hoN
            rw [hpw]
            exact hinv.frameTail o ho hoN
          · intro i k' v' hi hcond
            rw [hpw i] at hi
            have hiT0 : i < t0.size := by
              have := slotAt_lt_of_some hi
              rw [htlen] at this
              exact this
            have hcond' : dist t0.size start i < d ∨
                M < dist t0.size start i := by
              have := dist_lt hstart hiT0
              omega
            obtain ⟨hprobeY, havoidY⟩ := hinv.good i k' v' hi hcond'
            constructor
            · intro j hj hdj hnone
              rw [hpw j] at hnone
              exact hprobeY j hj hdj hnone
            · intro j hj hdj hbad
              omega
          · right
            rcases hinv.bound with h | h
            · omega
            · exact h
      -- take the step: either the walk wraps or we recurse
      have hstep : (p + 1) % t0.size = (start + (d + 1)) % t0.size := by
        rw [hp, wrap_succ]
      rw [hts, hstep]
      by_cases hwrap : (start + (d + 1)) % t0.size = start
      · rw [if_pos hwrap]
        have hdN1 : d + 1 = t0.size := by
          by_contra h
          exact wrap_ne_self hstart (by omega) (by omega) hwrap
        refine hout (d + 1) t2 hinv2 ?_
        intro i k' v' hi
        left
        have hiT0 : i < t0.size := by
          have := slotAt_lt_of_some hi
          rw [hlen2, hlen0] at this
          exact this
        have := dist_lt hstart hiT0
        omega
      · rw [if_neg hwrap]
        exact ih (d + 1) t2 (by omega) (by omega) hinv2

/-- The rehash walk gives the same result with any sufficient fuel: it
stops at the first empty slot or upon wrapping, after at most `size`
examinations. -/
theorem rehashGo_fuel (hf : Nat → Nat) (start N : Nat) (hN : 0 < N)
    (hstart : start < N) :
    ∀ f₁ f₂ d t, t.size = N → 1 ≤ d → d < N → N ≤ f₁ + d → N ≤ f₂ + d →
      rehashGo hf start f₁ ((start + d) % N) t =
      rehashGo hf start f₂ ((start + d) % N) t := by
  intro f₁
  induction f₁ with
  | zero => intro f₂ d t hsz h1 h2 h3 h4; omega
  | succ f₁ ih =>
    intro f₂ d t hsz h1 h2 h3 h4
    cases f₂ with
    | zero => omega
    | succ f₂ =>
      cases hslot : slotAt t ((start + d) % N) with
      | none => simp only [rehashGo, hslot]
      | some e =>
        simp only [rehashGo, hslot]
        rw [hsz]
        have hstep : ((start + d) % N + 1) % N = (start + (d + 1)) % N :=
          wrap_succ
        rw [hstep]
        by_cases hwrap : (start + (d + 1)) % N = start
        · rw [if_pos hwrap, if_pos hwrap]
        · rw [if_neg hwrap, if_neg hwrap]
          have hd1 : d + 1 < N := by
            rcases Nat.lt_or_ge (d + 1) N with h | h
            · exact h
            · exfalso
              have : d + 1 = N := by omega
              rw [this, wrap_full hstart] at hwrap
              exact hwrap rfl
          exact ih f₂ (d + 1) _ rfl (by omega) hd1 (by omega) (by omega)

/-- The invariant holds when the walk starts, one past the cleared slot. -/
theorem rehashInv_init (hf : Nat → Nat) (t0 : Table) (start M : Nat)
    (hN : 0 < t0.size) (hlen0 : t0.slots.length = t0.size)
    (hstart : start < t0.size)
    (h0none : slotAt t0 start = none)
    (huniq0 : Uniq t0)
    (hprobe0 : ∀ i k v, slotAt t0 i = some (k, v) → ∀ j, j < t0.size →
      dist t0.size (hashIdx hf t0 k) j < dist t0.size (hashIdx hf t0 k) i →
      j ≠ start → slotAt t0 j ≠ none)
    (hM : M < t0.size)
    (hcase : (1 ≤ M ∧ slotAt t0 ((start + M) % t0.size) = none ∧
              ∀ o, 1 ≤ o → o < M → slotAt t0 ((start + o) % t0.size) ≠ none)
           ∨ (∀ o, 1 ≤ o → o < t0.size →
              slotAt t0 ((start + o) % t0.size) ≠ none))
    (havoid : ∀ i k v, slotAt t0 i = some (k, v) →
      ¬ dist t0.size (hashIdx hf t0 k) ((start + M) % t0.size) <
        dist t0.size (hashIdx hf t0 k) i) :
    RehashInv hf t0 start M 1 t0 := by
  refine ⟨rfl, rfl, rfl, rfl, huniq0, fun k v => Iff.rfl, rfl,
    fun o _ _ => rfl, fun o _ _ => rfl, ?_, ?_⟩
  · intro i k v hi hcond
    have hiN : i < t0.size := by
      have := slotAt_lt_of_some hi
      rw [hlen0] at this
      exact this
    set s := hashIdx hf t0 k with hs
    have hsN : s < t0.size := hashIdx_lt hf hN k
    have hσNraw : dist t0.size start s < t0.size := dist_lt hstart hsN
    have hoffS : ∀ j, j < t0.size → dist t0.size s j =
        dist t0.size (dist t0.size start s) (dist t0.size start j) := by
      intro j hj
      conv_lhs => rw [← add_dist hstart hj, ← add_dist hstart hsN]
      rw [dist_ofs hstart hσNraw (dist_lt hstart hj)]
    have hav := havoid i k v hi
    rw [← hs, hoffS _ (wrap_lt hN _), hoffS i hiN,
      dist_add hstart hM] at hav
    set σ := dist t0.size start s with hσdef
    set δi := dist t0.size start i with hδidef
    have hσN : σ < t0.size := hσNraw
    have hδi : δi < t0.size := dist_lt hstart hiN
    have hMδi : M < δi := by
      rcases hcond with h | h
      · exfalso
        have h0 : δi = 0 := by omega
        have : start = i := (dist_eq_zero_iff hstart hiN).mp h0
        rw [← this, h0none] at hi
        exact Option.noConfusion hi
      · exact h
    constructor
    · intro j hj hdj hnone
      have hjs : j ≠ start := by
        intro h
        rw [hoffS j hj, hoffS i hiN] at hdj
        rw [h] at hdj
        rw [dist_self, ← hδidef] at hdj
        unfold dist at hdj hav
        split_ifs at hdj hav <;> omega
      exact hprobe0 i k v hi j hj hdj hjs hnone
    · intro j hj hdj hbad
      rw [hoffS j hj, hoffS i hiN] at hdj
      rw [← hδidef] at hdj
      obtain ⟨hb1, hb2⟩ := hbad
      have hδjN : dist t0.size start j < t0.size := dist_lt hstart hj
      generalize hgen : dist t0.size start j = δj at hdj hb1 hb2 hδjN
      unfold dist at hdj hav
      split_ifs at hdj hav <;> omega
  · rcases hcase with ⟨hM1, _, _⟩ | hfull
    · left
      exact hM1
    · right
      exact hfull

/-- What `_rehash_cluster` establishes, starting from the post-clear
table. -/
theorem rehashCluster_spec (hf : Nat → Nat) (t0 : Table) (start M : Nat)
    (hN : 0 < t0.size) (hlen0 : t0.slots.length = t0.size)
    (hstart : start < t0.size)
    (h0none : slotAt t0 start = none)
    (huniq0 : Uniq t0)
    (hprobe0 : ∀ i k v, slotAt t0 i = some (k, v) → ∀ j, j < t0.size →
      dist t0.size (hashIdx hf t0 k) j < dist t0.size (hashIdx hf t0 k) i →
      j ≠ start → slotAt t0 j ≠ none)
    (hM : M < t0.size)
    (hcase : (1 ≤ M ∧ slotAt t0 ((start + M) % t0.size) = none ∧
              ∀ o, 1 ≤ o → o < M → slotAt t0 ((start + o) % t0.size) ≠ none)
           ∨ (∀ o, 1 ≤ o → o < t0.size →
              slotAt t0 ((start + o) % t0.size) ≠ none))
    (havoid : ∀ i k v, slotAt t0 i = some (k, v) →
      ¬ dist t0.size (hashIdx hf t0 k) ((start + M) % t0.size) <
        dist t0.size (hashIdx hf t0 k) i) :
    RehashOut hf t0 (rehashCluster hf t0 start) := by
  have hinv1 := rehashInv_init hf t0 start M hN hlen0 hstart h0none huniq0
    hprobe0 hM hcase havoid
  unfold rehashCluster
  rcases Nat.eq_or_lt_of_le hN with hN1 | hN2
  · -- size 1: the slot after the cleared one is the cleared one itself
    have hstart0 : start = 0 := by omega
    have hidx : (start + 1) % t0.size = start := by
      rw [hstart0, ← hN1]
    rw [hidx]
    obtain ⟨f, hf'⟩ : ∃ f, t0.size = f + 1 := ⟨0, by omega⟩
    rw [hf']
    simp only [rehashGo, h0none]
    refine ⟨rfl, rfl, rfl, rfl, huniq0, fun k v => Iff.rfl, rfl, ?_⟩
    intro i k v hi
    exfalso
    have hiN : i < t0.size := by
      have := slotAt_lt_of_some hi
      rw [hlen0] at this
      exact this
    have : i = start := by omega
    rw [this, h0none] at hi
    exact Option.noConfusion hi
  · have hidx : (start + 1) % t0.size = (start + 1) % t0.size := rfl
    have heq := rehashGo_fuel hf start t0.size hN hstart t0.size
      (t0.size - 1) 1 t0 rfl le_rfl hN2 (by omega) (by omega)
    rw [heq]
    exact rehashGo_spec hf t0 start M hN hlen0 hstart h0none hprobe0 hM
      hcase havoid (t0.size - 1) 1 t0 (by omega) le_rfl hinv1

/-! ### `get` and `remove` behaviour -/

theorem occ_full_of_no_empty {l : List (Option Entry)}
    (h : ∀ i, i < l.length → l.getD i none ≠ none) :
    (l.filterMap id).length = l.length := by
  refine (occ_full_iff l).mpr ?_
  intro x hx hxn
  rcases List.mem_iff_getElem?.mp hx with ⟨i, hi⟩
  have hil : i < l.length := by
    by_contra hge
    rw [List.getElem?_eq_none (by omega)] at hi
    exact Option.noConfusion hi
  apply h i hil
  rw [List.getD_eq_getElem?_getD, hi, hxn]
  rfl

theorem keyHere_findSlot_absent {hf : Nat → Nat} {t : Table} {k : Nat}
    (hwf : WF hf t) (habs : ¬ Present t k) :
    keyHere t (findSlot hf t k) k = false := by
  have habs' := absent_iff.mp habs
  exact keyHere_false_iff.mpr (fun v' hv' => habs' _ v' hv')

theorem get_present {hf : Nat → Nat} {t : Table} {k i v : Nat}
    (hwf : WF hf t) (hslot : slotAt t i = some (k, v)) :
    get hf t k = .ok v := by
  have hfind : findSlot hf t k = i := hwf.findSlot_present hslot
  unfold get
  rw [hfind]
  simp [hslot]

theorem get_absent {hf : Nat → Nat} {t : Table} {k : Nat}
    (hwf : WF hf t) (habs : ¬ Present t k) :
    get hf t k = .error .notFound := by
  have habs' := absent_iff.mp habs
  unfold get
  rcases Nat.lt_or_ge (occCount t) t.size with hlt | hge
  · have hempty : ∃ i, i < t.size ∧ slotAt t i = none := by
      have := exists_empty_of_occ_lt (l := t.slots)
        (by rw [hwf.slots_len]; exact hlt)
      rcases this with ⟨i, hi, hnone⟩
      exact ⟨i, by rw [← hwf.slots_len]; exact hi, hnone⟩
    obtain ⟨hnone, _, _⟩ :=
      findSlot_empty_spec hf hwf.size_pos hwf.slots_len habs' hempty
    simp [hnone]
  · have hfull : occCount t = t.size := by
      have : occCount t ≤ t.slots.length := occ_le _
      rw [hwf.slots_len] at this
      omega
    have hnoempty : ∀ i, i < t.size → slotAt t i ≠ none := by
      intro i hi
      exact full_no_empty (by rw [hwf.slots_len]; exact hfull) i
        (by rw [hwf.slots_len]; exact hi)
    have hfind := findSlot_eq_hash_of_full hf hwf.size_pos hwf.slots_len
      habs' hnoempty
    rw [hfind]
    cases hcase : slotAt t (hashIdx hf t k) with
    | none =>
      exact absurd hcase (hnoempty _ (hashIdx_lt hf hwf.size_pos k))
    | some e =>
      have : ¬ e.1 = k := by
        intro h
        apply habs' (hashIdx hf t k) e.2
        rw [hcase]
        cases e
        simp_all
      simp [hcase, this]

theorem remove_present {hf : Nat → Nat} {t : Table} {k i v₀ : Nat}
    (hwf : WF hf t) (hslot : slotAt t i = some (k, v₀)) :
    remove hf t k = .ok (rehashCluster hf
      { t with slots := t.slots.set i none,
               count := t.count - 1,
               order := t.order.erase k } i) := by
  have hfind : findSlot hf t k = i := hwf.findSlot_present hslot
  have hkh : keyHere t i k = true := keyHere_iff.mpr ⟨v₀, hslot⟩
  unfold remove
  rw [hfind]
  simp [hkh]

theorem remove_absent {hf : Nat → Nat} {t : Table} {k : Nat}
    (hwf : WF hf t) (habs : ¬ Present t k) :
    remove hf t k = .error .notFound := by
  have hkh := keyHere_findSlot_absent hwf habs
  unfold remove
  simp [hkh]

/-- The full specification of a successful `remove`: well-formedness is
preserved, the removed key leaves the order list (everything else stays
in its relative position), every other entry keeps its value, and the
removed key is gone from the slot array. -/
theorem remove_ok_spec {hf : Nat → Nat} {t t' : Table} {k : Nat}
    (hwf : WF hf t) (h : remove hf t k = .ok t') :
    WF hf t' ∧ t'.order = t.order.erase k ∧ t'.count = t.count - 1 ∧
    (∀ k' v', k' ≠ k →
      ((∃ j, slotAt t' j = some (k', v')) ↔
       (∃ j, slotAt t j = some (k', v')))) ∧
    (∀ v', ¬ ∃ j, slotAt t' j = some (k, v')) := by
  by_cases hp : Present t k
  case neg =>
    rw [remove_absent hwf hp] at h
    exact absurd h (by simp)
  obtain ⟨i, v₀, hslot⟩ := present_iff.mp hp
  rw [remove_present hwf hslot] at h
  injection h with h'
  set t1 : Table := { t with slots := t.slots.set i none,
                             count := t.count - 1,
                             order := t.order.erase k } with ht1
  have hiN : i < t.size := by
    have := slotAt_lt_of_some hslot
    rw [hwf.slots_len] at this
    exact this
  have hilen : i < t.slots.length := slotAt_lt_of_some hslot
  have hslot1 : ∀ j, slotAt t1 j = if j = i then none else slotAt t j := by
    intro j
    by_cases hj : j = i
    · rw [if_pos hj, hj]
      exact getD_set_self hilen
    · rw [if_neg hj]
      exact getD_set_ne (fun hh => hj hh.symm)
  have hN1 : 0 < t1.size := hwf.size_pos
  have hlen1 : t1.slots.length = t1.size := by
    show (t.slots.set i none).length = t.size
    rw [List.length_set]
    exact hwf.slots_len
  have h0none : slotAt t1 i = none := by rw [hslot1 i, if_pos rfl]
  have huniq1 : Uniq t1 := by
    intro a b k' va vb ha hb
    rw [hslot1 a] at ha
    rw [hslot1 b] at hb
    by_cases haI : a = i
    · rw [if_pos haI] at ha
      exact absurd ha (by simp)
    · by_cases hbI : b = i
      · rw [if_pos hbI] at hb
        exact absurd hb (by simp)
      · rw [if_neg haI] at ha
        rw [if_neg hbI] at hb
        exact hwf.uniq a b k' va vb ha hb
  have hhash1 : ∀ k', hashIdx hf t1 k' = hashIdx hf t k' := fun _ => rfl
  have hprobe1 : ∀ a k' v', slotAt t1 a = some (k', v') →
      ∀ j, j < t1.size →
      dist t1.size (hashIdx hf t1 k') j < dist t1.size (hashIdx hf t1 k') a →
      j ≠ i → slotAt t1 j ≠ none := by
    intro a k' v' ha j hj hdj hji hnone
    rw [hslot1 a] at ha
    by_cases haI : a = i
    · rw [if_pos haI] at ha
      exact Option.noConfusion ha
    · rw [if_neg haI] at ha
      rw [hslot1 j, if_neg hji] at hnone
      exact hwf.probe a k' v' ha j hj hdj hnone
  have hent1 : ∀ k' v', (∃ j, slotAt t1 j = some (k', v')) ↔
      (k' ≠ k ∧ ∃ j, slotAt t j = some (k', v')) := by
    intro k' v'
    constructor
    · rintro ⟨j, hj⟩
      rw [hslot1 j] at hj
      by_cases hjI : j = i
      · rw [if_pos hjI] at hj
        exact absurd hj (by simp)
      · rw [if_neg hjI] at hj
        refine ⟨?_, j, hj⟩
        intro hkk
        rw [hkk] at hj
        exact hjI (hwf.uniq j i k v' v₀ hj hslot)
    · rintro ⟨hne, j, hj⟩
      have hjI : j ≠ i := by
        intro hh
        rw [hh, hslot] at hj
        rw [Option.some_inj, Prod.mk.injEq] at hj
        exact hne hj.1.symm
      exact ⟨j, by rw [hslot1 j, if_neg hjI]; exact hj⟩
  -- boundary offset
  have hout : RehashOut hf t1 t' := by
    rw [← h']
    by_cases hEx : ∃ o, 1 ≤ o ∧ o < t1.size ∧
        slotAt t1 ((i + o) % t1.size) = none
    · set M := Nat.find hEx with hMdef
      obtain ⟨hM1, hMN, hMnone⟩ := Nat.find_spec hEx
      have hMmin : ∀ o, 1 ≤ o → o < M →
          slotAt t1 ((i + o) % t1.size) ≠ none := by
        intro o ho1 hoM hnone
        exact Nat.find_min hEx hoM ⟨ho1, by omega, hnone⟩
      have hmne : (i + M) % t1.size ≠ i :=
        wrap_ne_self hiN (by omega) hMN
      have hmtnone : slotAt t ((i + M) % t1.size) = none := by
        have := hMnone
        rw [hslot1 _, if_neg hmne] at this
        exact this
      refine rehashCluster_spec hf t1 i M hN1 hlen1 hiN h0none huniq1
        hprobe1 hMN (Or.inl ⟨hM1, hMnone, hMmin⟩) ?_
      intro a k' v' ha hlt
      rw [hslot1 a] at ha
      by_cases haI : a = i
      · rw [if_pos haI] at ha
        exact Option.noConfusion ha
      · rw [if_neg haI] at ha
        exact hwf.probe a k' v' ha _ (wrap_lt hN1 _) hlt hmtnone
    · push_neg at hEx
      have hno1 : ∀ o, 1 ≤ o → o < t1.size →
          slotAt t1 ((i + o) % t1.size) ≠ none := by
        intro o ho1 hoN
        exact hEx o ho1 hoN
      have hfull : ∀ j, j < t.size → slotAt t j ≠ none := by
        intro j hj hnone
        by_cases hjI : j = i
        · rw [hjI, hslot] at hnone
          exact Option.noConfusion hnone
        · have hδ : dist t.size i j < t.size := dist_lt hiN hj
          have hδ1 : 1 ≤ dist t.size i j := by
            by_contra hh
            push_neg at hh
            have : dist t.size i j = 0 := by omega
            exact hjI ((dist_eq_zero_iff hiN hj).mp this).symm
          apply hno1 (dist t.size i j) hδ1 hδ
          rw [show ((i + dist t.size i j) % t1.size) = j from
            add_dist hiN hj]
          rw [hslot1 j, if_neg hjI]
          exact hnone
      have hoccfull : occCount t = t.size := by
        rw [← hwf.slots_len]
        apply occ_full_of_no_empty
        intro a ha
        exact hfull a (by rw [← hwf.slots_len]; exact ha)
      obtain ⟨m, hmN, hesc⟩ := hwf.escape hoccfull
      set M := dist t.size i m with hMdef
      have hMN : M < t.size := dist_lt hiN hmN
      have hofsM : (i + M) % t1.size = m := add_dist hiN hmN
      refine rehashCluster_spec hf t1 i M hN1 hlen1 hiN h0none huniq1
        hprobe1 hMN (Or.inr hno1) ?_
      intro a k' v' ha hlt
      rw [hslot1 a] at ha
      by_cases haI : a = i
      · rw [if_pos haI] at ha
        exact Option.noConfusion ha
      · rw [if_neg haI] at ha
        rw [hofsM] at hlt
        exact hesc a k' v' ha hlt
  -- assemble the well-formedness of the result
  have hkmem : k ∈ t.order := (hwf.mem_iff k).mpr ⟨i, v₀, hslot⟩
  have holen : 0 < t.order.length := List.length_pos.mpr (by
    intro hh
    rw [hh] at hkmem
    simp at hkmem)
  have hocc1 : occCount t1 + 1 = occCount t := occ_set_none_of_some hslot
  have horder' : t'.order = t.order.erase k := hout.order_eq
  have hcount' : t'.count = t.count - 1 := hout.count_eq
  have hent' : ∀ k' v', (∃ j, slotAt t' j = some (k', v')) ↔
      (k' ≠ k ∧ ∃ j, slotAt t j = some (k', v')) := by
    intro k' v'
    rw [hout.entries k' v', hent1 k' v']
  refine ⟨⟨?_, ?_, ?_, ?_, ?_, ?_, hout.uniq, ?_, ?_⟩, horder', hcount',
    ?_, ?_⟩
  · rw [hout.size_eq]
    exact hwf.size_pos
  · rw [hout.len_eq, hout.size_eq]
    exact hlen1
  · rw [hcount', horder', List.length_erase_of_mem hkmem, hwf.count_ord]
    push_cast
    omega
  · rw [horder', List.length_erase_of_mem hkmem, hout.occ]
    rw [hwf.occ_ord] at hocc1
    omega
  · rw [horder']
    exact hwf.nodup.erase k
  · intro k'
    rw [horder', List.Nodup.mem_erase_iff hwf.nodup, hwf.mem_iff k']
    constructor
    · rintro ⟨hne, j, v', hj⟩
      obtain ⟨j2, hj2⟩ := (hent' k' v').mpr ⟨hne, j, hj⟩
      exact ⟨j2, v', hj2⟩
    · rintro ⟨j, v', hj⟩
      obtain ⟨hne, j', hj'⟩ := (hent' k' v').mp ⟨j, hj⟩
      exact ⟨hne, j', v', hj'⟩
  · exact hout.probe
  · intro hfull'
    exfalso
    have h1 : occCount t' = occCount t1 := hout.occ
    have h2 : occCount t ≤ t.size := by
      have := occ_le t.slots
      rw [hwf.slots_len] at this
      exact this
    have h3 : t'.size = t.size := hout.size_eq
    omega
  · intro k' v' hne
    rw [hent' k' v']
    constructor
    · rintro ⟨_, j, hj⟩
      exact ⟨j, hj⟩
    · rintro ⟨j, hj⟩
      exact ⟨hne, j, hj⟩
  · intro v' ⟨j, hj⟩
    obtain ⟨hne, _, _⟩ := (hent' k v').mp ⟨j, hj⟩
    exact hne rfl

/-! ### Reachable states are well-formed -/

theorem slotAt_mkTable {n i : Nat} : slotAt (mkTable n) i = none := by
  unfold slotAt mkTable
  rw [List.getD_eq_getElem?_getD, List.getElem?_replicate]
  split <;> rfl

theorem occCount_mkTable {n : Nat} : occCount (mkTable n) = 0 := by
  show (List.filterMap id (List.replicate n (none : Option Entry))).length = 0
  induction n with
  | zero => rfl
  | succ n ih => rwa [List.replicate_succ, List.filterMap_cons]

theorem wf_mkTable (hf : Nat → Nat) {n : Nat} (hn : 1 ≤ n) :
    WF hf (mkTable n) := by
  refine ⟨hn, ?_, rfl, ?_, List.nodup_nil, ?_, ?_, ?_, ?_⟩
  · exact List.length_replicate _ _
  · rw [occCount_mkTable]
    rfl
  · intro k
    constructor
    · intro h
      simp [mkTable] at h
    · rintro ⟨i, v, hi⟩
      rw [slotAt_mkTable] at hi
      exact Option.noConfusion hi
  · intro a b k va vb ha
    rw [slotAt_mkTable] at ha
    exact absurd ha (by simp)
  · intro a k v ha
    rw [slotAt_mkTable] at ha
    exact absurd ha (by simp)
  · intro h
    rw [occCount_mkTable] at h
    have : (mkTable n).size = n := rfl
    omega

theorem wf_applyOp {hf : Nat → Nat} {t : Table} (hwf : WF hf t) (op : Op) :
    WF hf (applyOp hf t op) := by
  cases op with
  | ins k v =>
    show WF hf (match insert hf t k v with
      | .ok t' => t' | .error _ => t)
    cases h : insert hf t k v with
    | ok t' => exact wf_insert_ok hwf h
    | error e => exact hwf
  | rem k =>
    show WF hf (match remove hf t k with
      | .ok t' => t' | .error _ => t)
    cases h : remove hf t k with
    | ok t' => exact (remove_ok_spec hwf h).1
    | error e => exact hwf
  | qget k => exact hwf
  | qfirst => exact hwf
  | qlast => exact hwf

theorem reachable_wf {hf : Nat → Nat} {t : Table} (h : Reachable hf t) :
    WF hf t := by
  induction h with
  | init n hn => exact wf_mkTable hf hn
  | step t op _ ih => exact wf_applyOp ih op

theorem reachable_applyOps {hf : Nat → Nat} {t : Table}
    (h : Reachable hf t) (ops : List Op) :
    Reachable hf (runOps hf t ops) := by
  induction ops generalizing t with
  | nil => exact h
  | cons op ops ih => exact ih (Reachable.step t op h)

theorem reachable_runOps (hf : Nat → Nat) {n : Nat} (hn : 1 ≤ n)
    (ops : List Op) : Reachable hf (runOps hf (mkTable n) ops) :=
  reachable_applyOps (Reachable.init n hn) ops

/-! ### Refinement: the order list tracks the spec's recency sequence -/

theorem mem_entries_iff {t : Table} {e : Entry} :
    e ∈ t.slots.filterMap id ↔ ∃ j, slotAt t j = some e := by
  rw [List.mem_filterMap]
  constructor
  · rintro ⟨x, hx, hxe⟩
    rcases List.mem_iff_getElem?.mp hx with ⟨j, hj⟩
    refine ⟨j, slotAt_some_iff.mpr ?_⟩
    rw [hj]
    have : x = some e := hxe
    rw [this]
  · rintro ⟨j, hj⟩
    exact ⟨some e, List.mem_iff_getElem?.mpr ⟨j, slotAt_some_iff.mp hj⟩, rfl⟩

theorem valOf_eq {hf : Nat → Nat} {t : Table} {k i v : Nat}
    (hwf : WF hf t) (hslot : slotAt t i = some (k, v)) :
    valOf t k = some v := by
  unfold valOf
  cases hfind : (t.slots.filterMap id).find? (fun e => e.1 = k) with
  | none =>
    exfalso
    have := List.find?_eq_none.mp hfind (k, v)
      (mem_entries_iff.mpr ⟨i, hslot⟩)
    simp at this
  | some e =>
    have hp := List.find?_some hfind
    have hmem := List.mem_of_find?_eq_some hfind
    rw [decide_eq_true_eq] at hp
    obtain ⟨j, hj⟩ := mem_entries_iff.mp hmem
    have hj' : slotAt t j = some (k, e.2) := by
      rw [hj]
      cases e
      simp_all
    have hji := hwf.uniq j i k e.2 v hj' hslot
    rw [hji, hslot, Option.some_inj, Prod.mk.injEq] at hj'
    simp [← hj'.2]

theorem map_erase_eraseP {k : Nat} :
    ∀ (l : List Nat) (g h : Nat → Entry), l.Nodup →
    (∀ a, (h a).1 = a) → (∀ a, a ∈ l → a ≠ k → g a = h a) →
    (l.erase k).map g = (l.map h).eraseP (fun e => e.1 = k) := by
  intro l
  induction l with
  | nil => intro g h _ _ _; rfl
  | cons a l ih =>
    intro g h hnd hkey hgh
    by_cases hak : a = k
    · subst hak
      rw [List.erase_cons_head, List.map_cons,
        List.eraseP_cons_of_pos (by simp [hkey])]
      apply List.map_congr_left
      intro b hb
      exact hgh b (List.mem_cons_of_mem _ hb)
        (fun hbk => (List.nodup_cons.mp hnd).1 (hbk ▸ hb))
    · rw [List.erase_cons_tail (by simp [hak]),
        List.map_cons, List.map_cons,
        List.eraseP_cons_of_neg (by simp [hkey]; exact hak)]
      rw [hgh a (List.mem_cons_self _ _) hak]
      rw [ih g h (List.nodup_cons.mp hnd).2 hkey
        (fun b hb hbk => hgh b (List.mem_cons_of_mem _ hb) hbk)]

theorem rehashGo_order (hf : Nat → Nat) (start : Nat) :
    ∀ fuel idx t, (rehashGo hf start fuel idx t).order = t.order := by
  intro fuel
  induction fuel with
  | zero => intro idx t; rfl
  | succ fuel ih =>
    intro idx t
    cases hslot : slotAt t idx with
    | none => simp only [rehashGo, hslot]
    | some e =>
      simp only [rehashGo, hslot]
      split
      · rfl
      · rw [ih]

theorem rehashGo_size (hf : Nat → Nat) (start : Nat) :
    ∀ fuel idx t, (rehashGo hf start fuel idx t).size = t.size := by
  intro fuel
  induction fuel with
  | zero => intro idx t; rfl
  | succ fuel ih =>
    intro idx t
    cases hslot : slotAt t idx with
    | none => simp only [rehashGo, hslot]
    | some e =>
      simp only [rehashGo, hslot]
      split
      · rfl
      · rw [ih]

theorem insert_ok_size {hf : Nat → Nat} {t t' : Table} {k v : Nat}
    (h : insert hf t k v = .ok t') : t'.size = t.size := by
  simp only [insert] at h
  split_ifs at h <;> (injection h with h'; rw [← h'])

theorem remove_ok_size {hf : Nat → Nat} {t t' : Table} {k : Nat}
    (h : remove hf t k = .ok t') : t'.size = t.size := by
  simp only [remove] at h
  split_ifs at h
  injection h with h'
  rw [← h']
  unfold rehashCluster
  rw [rehashGo_size]

theorem applyOp_size {hf : Nat → Nat} {t : Table} (op : Op) :
    (applyOp hf t op).size = t.size := by
  cases op with
  | ins k v =>
    show (match insert hf t k v with
      | .ok t' => t' | .error _ => t).size = t.size
    cases h : insert hf t k v with
    | ok t' => exact insert_ok_size h
    | error e => rfl
  | rem k =>
    show (match remove hf t k with
      | .ok t' => t' | .error _ => t).size = t.size
    cases h : remove hf t k with
    | ok t' => exact remove_ok_size h
    | error e => rfl
  | qget k => rfl
  | qfirst => rfl
  | qlast => rfl

theorem orderEntries_keys (t : Table) :
    (orderEntries t).map Prod.fst = t.order := by
  unfold orderEntries
  rw [List.map_map]
  exact List.map_id'' (fun x => rfl) t.order

theorem orderEntries_applyOp {hf : Nat → Nat} {t : Table} (hwf : WF hf t)
    (op : Op) :
    orderEntries (applyOp hf t op) = recStep t.size (orderEntries t) op := by
  cases op with
  | qget k => rfl
  | qfirst => rfl
  | qlast => rfl
  | ins k v =>
    show orderEntries (match insert hf t k v with
      | .ok t' => t' | .error _ => t) = _
    have hcontains : ((orderEntries t).map Prod.fst).contains k =
        decide (k ∈ t.order) := by
      rw [orderEntries_keys]
      by_cases h : k ∈ t.order
      · simp [h]
      · simp [h]
    by_cases hp : Present t k
    · obtain ⟨i, v₀, hslot⟩ := present_iff.mp hp
      have hmem : k ∈ t.order := (hwf.mem_iff k).mpr ⟨i, v₀, hslot⟩
      rw [insert_present hwf hslot v]
      set tu : Table := { t with slots := t.slots.set i (some (k, v)),
                                 order := moveToEnd t.order k } with htu
      have hwfu : WF hf tu := wf_insert_update hwf hslot
      show orderEntries tu = _
      rw [show recStep t.size (orderEntries t) (.ins k v) =
        if ((orderEntries t).map Prod.fst).contains k then
          (orderEntries t).eraseP (fun e => e.1 = k) ++ [(k, v)]
        else if (orderEntries t).length < t.size then
          orderEntries t ++ [(k, v)] else orderEntries t from rfl]
      rw [hcontains, decide_eq_true hmem, if_pos rfl]
      unfold orderEntries
      show (moveToEnd t.order k).map _ = _
      rw [moveToEnd_eq hmem hwf.nodup, List.map_append]
      have hslotu : slotAt tu i = some (k, v) :=
        getD_set_self (slotAt_lt_of_some hslot)
      congr 1
      · rw [map_erase_eraseP t.order _ (fun k' => (k', (valOf t k').getD 0))
          hwf.nodup (fun a => rfl) ?_]
        intro a ha hak
        obtain ⟨j, w, hj⟩ := (hwf.mem_iff a).mp ha
        have hji : j ≠ i := by
          intro hh
          rw [hh, hslot, Option.some_inj, Prod.mk.injEq] at hj
          exact hak hj.1.symm
        have hju : slotAt tu j = some (a, w) := by
          have : slotAt tu j = slotAt t j :=
            getD_set_ne (fun hh => hji hh.symm)
          rw [this]
          exact hj
        simp [valOf_eq hwfu hju, valOf_eq hwf hj]
      · rw [List.map_singleton, valOf_eq hwfu hslotu]
        rfl
    · have habs' := absent_iff.mp hp
      have hnmem : k ∉ t.order := fun hmem => hp ((present_iff).mpr
        ((hwf.mem_iff k).mp hmem))
      rw [show recStep t.size (orderEntries t) (.ins k v) =
        if ((orderEntries t).map Prod.fst).contains k then
          (orderEntries t).eraseP (fun e => e.1 = k) ++ [(k, v)]
        else if (orderEntries t).length < t.size then
          orderEntries t ++ [(k, v)] else orderEntries t from rfl]
      rw [hcontains, decide_eq_false hnmem, if_neg (by simp)]
      have hlen : (orderEntries t).length = occCount t := by
        unfold orderEntries
        rw [List.length_map, hwf.occ_ord]
      rcases Nat.lt_or_ge (occCount t) t.size with hlt | hge
      · obtain ⟨hnone, hr, hfirst, heq⟩ := insert_absent_notfull hwf hp hlt v
        rw [heq]
        set tu : Table := { t with
          slots := t.slots.set (findSlot hf t k) (some (k, v)),
          order := t.order ++ [k], count := t.count + 1 } with htu
        have hwfu : WF hf tu := wf_insert_new hwf habs' hnone hr hfirst
        rw [if_pos (by omega)]
        show (t.order ++ [k]).map _ = _
        rw [List.map_append, List.map_singleton]
        have hrlen : findSlot hf t k < t.slots.length := by
          rw [hwf.slots_len]
          exact hr
        have hslotu : slotAt tu (findSlot hf t k) = some (k, v) :=
          getD_set_self hrlen
        congr 1
        · unfold orderEntries
          apply List.map_congr_left
          intro a ha
          obtain ⟨j, w, hj⟩ := (hwf.mem_iff a).mp ha
          have hji : j ≠ findSlot hf t k := by
            intro hh
            rw [hh, hnone] at hj
            exact Option.noConfusion hj
          have hju : slotAt tu j = some (a, w) := by
            have : slotAt tu j = slotAt t j :=
              getD_set_ne (fun hh => hji hh.symm)
            rw [this]
            exact hj
          simp [valOf_eq hwfu hju, valOf_eq hwf hj]
        · rw [valOf_eq hwfu hslotu]
          rfl
      · have hfull : occCount t = t.size := by
          have : occCount t ≤ t.slots.length := occ_le _
          rw [hwf.slots_len] at this
          omega
        rw [insert_absent_full hwf hp hfull v, if_neg (by omega)]
  | rem k =>
    show orderEntries (match remove hf t k with
      | .ok t' => t' | .error _ => t) = _
    have hcontains : ((orderEntries t).map Prod.fst).contains k =
        decide (k ∈ t.order) := by
      rw [orderEntries_keys]
      by_cases h : k ∈ t.order
      · simp [h]
      · simp [h]
    rw [show recStep t.size (orderEntries t) (.rem k) =
      if ((orderEntries t).map Prod.fst).contains k then
        (orderEntries t).eraseP (fun e => e.1 = k)
      else orderEntries t from rfl]
    by_cases hp : Present t k
    · obtain ⟨i, v₀, hslot⟩ := present_iff.mp hp
      have hmem : k ∈ t.order := (hwf.mem_iff k).mpr ⟨i, v₀, hslot⟩
      rw [hcontains, decide_eq_true hmem, if_pos rfl]
      cases hrm : remove hf t k with
      | error e =>
        rw [remove_present hwf hslot] at hrm
        exact absurd hrm (by simp)
      | ok t' =>
        obtain ⟨hwf', horder, _, hpres, _⟩ := remove_ok_spec hwf hrm
        unfold orderEntries
        rw [horder]
        rw [map_erase_eraseP t.order _ (fun k' => (k', (valOf t k').getD 0))
          hwf.nodup (fun a => rfl) ?_]
        intro a ha hak
        obtain ⟨j, w, hj⟩ := (hwf.mem_iff a).mp ha
        obtain ⟨j', hj'⟩ := (hpres a w hak).mpr ⟨j, hj⟩
        simp [valOf_eq hwf' hj', valOf_eq hwf hj]
    · have hnmem : k ∉ t.order := fun hmem => hp ((present_iff).mpr
        ((hwf.mem_iff k).mp hmem))
      rw [hcontains, decide_eq_false hnmem, if_neg (by simp)]
      rw [remove_absent hwf hp]

theorem orderEntries_runOps {hf : Nat → Nat} :
    ∀ (ops : List Op) (t : Table), Reachable hf t →
    orderEntries (runOps hf t ops) = recSpec t.size (orderEntries t) ops := by
  intro ops
  induction ops with
  | nil => intro t _; rfl
  | cons op ops ih =>
    intro t hreach
    show orderEntries (runOps hf (applyOp hf t op) ops) = _
    rw [ih (applyOp hf t op) (Reachable.step t op hreach)]
    rw [show recSpec t.size (orderEntries t) (op :: ops) =
      recSpec t.size (recStep t.size (orderEntries t) op) ops from rfl]
    rw [orderEntries_applyOp (reachable_wf hreach) op, applyOp_size]

/-! ### Round-trip machinery -/

theorem hasVal_get {hf : Nat → Nat} {t : Table} {k v : Nat}
    (hwf : WF hf t) (h : HasVal t k v) : get hf t k = .ok v := by
  obtain ⟨i, hi⟩ := h
  exact get_present hwf hi

theorem get_ok_iff {hf : Nat → Nat} {t : Table} {k v : Nat}
    (hwf : WF hf t) : get hf t k = .ok v ↔ HasVal t k v := by
  constructor
  · intro h
    by_cases hp : Present t k
    · obtain ⟨i, v₀, hi⟩ := present_iff.mp hp
      rw [get_present hwf hi] at h
      injection h with h'
      exact ⟨i, by rw [← h']; exact hi⟩
    · rw [get_absent hwf hp] at h
      exact absurd h (by simp)
  · exact hasVal_get hwf

theorem present_of_hasVal {t : Table} {k v : Nat} (h : HasVal t k v) :
    Present t k := by
  obtain ⟨i, hi⟩ := h
  exact present_iff.mpr ⟨i, v, hi⟩

theorem insert_ok_hasVal {hf : Nat → Nat} {t t₁ : Table} {k v : Nat}
    (hwf : WF hf t) (h : insert hf t k v = .ok t₁) : HasVal t₁ k v := by
  by_cases hp : Present t k
  · obtain ⟨i, v₀, hslot⟩ := present_iff.mp hp
    rw [insert_present hwf hslot v] at h
    injection h with h'
    refine ⟨i, ?_⟩
    rw [← h']
    exact getD_set_self (slotAt_lt_of_some hslot)
  · rcases Nat.lt_or_ge (occCount t) t.size with hlt | hge
    · obtain ⟨hnone, hr, _, heq⟩ := insert_absent_notfull hwf hp hlt v
      rw [heq] at h
      injection h with h'
      refine ⟨findSlot hf t k, ?_⟩
      rw [← h']
      exact getD_set_self (by rw [hwf.slots_len]; exact hr)
    · have hfull : occCount t = t.size := by
        have : occCount t ≤ t.slots.length := occ_le _
        rw [hwf.slots_len] at this
        omega
      rw [insert_absent_full hwf hp hfull v] at h
      exact absurd h (by simp)

theorem insert_ok_other {hf : Nat → Nat} {t t₁ : Table} {k v k' v' : Nat}
    (hwf : WF hf t) (h : insert hf t k v = .ok t₁) (hne : k' ≠ k)
    (hv : HasVal t k' v') : HasVal t₁ k' v' := by
  obtain ⟨i, hi⟩ := hv
  by_cases hp : Present t k
  · obtain ⟨j, v₀, hslot⟩ := present_iff.mp hp
    rw [insert_present hwf hslot v] at h
    injection h with h'
    have hij : i ≠ j := by
      intro hh
      rw [hh, hslot, Option.some_inj, Prod.mk.injEq] at hi
      exact hne hi.1.symm
    refine ⟨i, ?_⟩
    rw [← h']
    show (t.slots.set j (some (k, v))).getD i none = _
    rw [getD_set_ne (fun hh => hij hh.symm)]
    exact hi
  · rcases Nat.lt_or_ge (occCount t) t.size with hlt | hge
    · obtain ⟨hnone, hr, _, heq⟩ := insert_absent_notfull hwf hp hlt v
      rw [heq] at h
      injection h with h'
      have hir : i ≠ findSlot hf t k := by
        intro hh
        rw [hh, hnone] at hi
        exact Option.noConfusion hi
      refine ⟨i, ?_⟩
      rw [← h']
      show (t.slots.set (findSlot hf t k) (some (k, v))).getD i none = _
      rw [getD_set_ne (fun hh => hir hh.symm)]
      exact hi
    · have hfull : occCount t = t.size := by
        have : occCount t ≤ t.slots.length := occ_le _
        rw [hwf.slots_len] at this
        omega
      rw [insert_absent_full hwf hp hfull v] at h
      exact absurd h (by simp)

theorem hasVal_applyOp {hf : Nat → Nat} {t : Table} {k v : Nat}
    (hwf : WF hf t) (h : HasVal t k v) (op : Op)
    (h1 : op ≠ .rem k) (h2 : ∀ v', op = .ins k v' → v' = v) :
    HasVal (applyOp hf t op) k v := by
  cases op with
  | qget k' => exact h
  | qfirst => exact h
  | qlast => exact h
  | ins k' v' =>
    show HasVal (match insert hf t k' v' with
      | .ok t' => t' | .error _ => t) k v
    cases hins : insert hf t k' v' with
    | error e => exact h
    | ok t₁ =>
      by_cases hk : k' = k
      · subst hk
        have hv' : v' = v := h2 v' rfl
        subst hv'
        exact insert_ok_hasVal hwf hins
      · exact insert_ok_other hwf hins (fun hh => hk hh.symm) h
  | rem k' =>
    show HasVal (match remove hf t k' with
      | .ok t' => t' | .error _ => t) k v
    cases hrm : remove hf t k' with
    | error e => exact h
    | ok t₁ =>
      have hkk : k ≠ k' := by
        intro hh
        exact h1 (by rw [hh])
      obtain ⟨_, _, _, hpres, _⟩ := remove_ok_spec hwf hrm
      obtain ⟨i, hi⟩ := h
      obtain ⟨j, hj⟩ := (hpres k v hkk).mpr ⟨i, hi⟩
      exact ⟨j, hj⟩

theorem hasVal_runOps {hf : Nat → Nat} {k v : Nat} :
    ∀ (ops : List Op) (t : Table), Reachable hf t → HasVal t k v →
    (∀ op, op ∈ ops → op ≠ Op.rem k ∧ ∀ v', op = Op.ins k v' → v' = v) →
    HasVal (runOps hf t ops) k v := by
  intro ops
  induction ops with
  | nil => intro t _ h _; exact h
  | cons op ops ih =>
    intro t hreach h hops
    show HasVal (runOps hf (applyOp hf t op) ops) k v
    refine ih (applyOp hf t op) (Reachable.step t op hreach) ?_ ?_
    · exact hasVal_applyOp (reachable_wf hreach) h op
        (hops op (List.mem_cons_self _ _)).1 (hops op (List.mem_cons_self _ _)).2
    · intro op' hop'
      exact hops op' (List.mem_cons_of_mem _ hop')

/-- The cluster-repair walk of `remove` is insensitive to extra fuel: at
most `size` slot examinations happen before it stops at an empty slot or
wraps back to the cleared index. -/
theorem rehashCluster_fuel (hf : Nat → Nat) {t : Table} {start : Nat}
    (hN : 0 < t.size) (hstart : start < t.size)
    (hnone : slotAt t start = none) :
    ∀ f, t.size ≤ f + 1 →
      rehashGo hf start f ((start + 1) % t.size) t = rehashCluster hf t start := by
  intro f hfN
  unfold rehashCluster
  rcases Nat.eq_or_lt_of_le hN with h1 | h2
  · have hstart0 : start = 0 := by omega
    have hidx : (start + 1) % t.size = start := by
      rw [hstart0, ← h1]
    rw [hidx]
    have hgo : ∀ g, rehashGo hf start g start t = t := by
      intro g
      cases g with
      | zero => rfl
      | succ g => simp only [rehashGo, hnone]
    rw [hgo, hgo]
  · exact rehashGo_fuel hf start t.size hN hstart f t.size 1 t rfl le_rfl h2
      (by omega) (by omega)

/-! ### The claims -/

/-- C1: in every reachable table state, after a successful `remove k`,
every other key that was retrievable before (via `get`, with some value)
is still retrievable via `get` and returns the same value: cluster repair
orphans no entry. -/
theorem claim_C1 (hf : Nat → Nat) (t t' : Table) (k k' v' : Nat)
    (hreach : Reachable hf t) (hrem : remove hf t k = .ok t')
    (hne : k' ≠ k) (hget : get hf t k' = .ok v') :
    get hf t' k' = .ok v' := by
  have hwf := reachable_wf hreach
  obtain ⟨hwf', _, _, hpres, _⟩ := remove_ok_spec hwf hrem
  obtain ⟨i, hi⟩ := (get_ok_iff hwf).mp hget
  obtain ⟨j, hj⟩ := (hpres k' v' hne).mpr ⟨i, hi⟩
  exact get_present hwf' hj

theorem claim_C1_witness :
    get (fun a => a)
      (applyOp (fun a => a)
        (runOps (fun a => a) (mkTable 3) [.ins 0 1, .ins 1 2, .ins 2 3])
        (.rem 1)) 2 = .ok 3 :=
  claim_C1 (fun a => a)
    (runOps (fun a => a) (mkTable 3) [.ins 0 1, .ins 1 2, .ins 2 3]) _ 1 2 3
    (reachable_runOps _ (by omega) _) (by decide) (by decide) (by decide)

/-- C2: in every reachable table state, the set of entries read off the
head-to-tail traversal of the order list equals the set of entries stored
in non-empty slots, and the traversal length equals `count`. -/
theorem claim_C2 (hf : Nat → Nat) (t : Table) (hreach : Reachable hf t) :
    (∀ e : Entry, e ∈ orderEntries t ↔ e ∈ t.slots.filterMap id) ∧
    ((orderEntries t).length : Int) = t.count := by
  have hwf := reachable_wf hreach
  constructor
  · intro e
    rw [mem_entries_iff]
    constructor
    · intro hmem
      obtain ⟨a, ha, hae⟩ := List.mem_map.mp hmem
      obtain ⟨j, w, hj⟩ := (hwf.mem_iff a).mp ha
      rw [valOf_eq hwf hj] at hae
      exact ⟨j, by rw [← hae]; exact hj⟩
    · rintro ⟨j, hj⟩
      have hj' : slotAt t j = some (e.1, e.2) := by rw [hj]
      have hmem : e.1 ∈ t.order := (hwf.mem_iff e.1).mpr ⟨j, e.2, hj'⟩
      refine List.mem_map.mpr ⟨e.1, hmem, ?_⟩
      rw [valOf_eq hwf hj']
      rfl
  · show ((t.order.map _).length : Int) = t.count
    rw [List.length_map, hwf.count_ord]

theorem claim_C2_witness :
    ((orderEntries (runOps (fun a => a) (mkTable 3)
        [.ins 0 1, .ins 1 2, .rem 0])).length : Int) =
      (runOps (fun a => a) (mkTable 3) [.ins 0 1, .ins 1 2, .rem 0]).count :=
  (claim_C2 (fun a => a) _ (reachable_runOps _ (by omega) _)).2

/-- C3: in every reachable state, if `insert k v` succeeds then `get k`
returns `v`, and this persists under any further operations that contain
no `remove k` and no `insert k v'` with `v' ≠ v`. -/
theorem claim_C3 (hf : Nat → Nat) (t t₁ : Table) (k v : Nat) (ops : List Op)
    (hreach : Reachable hf t) (hins : insert hf t k v = .ok t₁)
    (hops : ∀ op, op ∈ ops → op ≠ Op.rem k ∧ ∀ v', op = Op.ins k v' → v' = v) :
    get hf (runOps hf t₁ ops) k = .ok v := by
  have hwf := reachable_wf hreach
  have happ : applyOp hf t (.ins k v) = t₁ := by
    show (match insert hf t k v with | .ok t' => t' | .error _ => t) = t₁
    rw [hins]
  have hreach₁ : Reachable hf t₁ := by
    rw [← happ]
    exact Reachable.step t (.ins k v) hreach
  have h1 : HasVal t₁ k v := insert_ok_hasVal hwf hins
  have h2 := hasVal_runOps ops t₁ hreach₁ h1 hops
  exact hasVal_get (reachable_wf (reachable_applyOps hreach₁ ops)) h2

theorem claim_C3_witness :
    get (fun a => a)
      (runOps (fun a => a)
        (applyOp (fun a => a)
          (runOps (fun a => a) (mkTable 3) [.ins 0 1]) (.ins 1 7))
        [.ins 2 9, .rem 0, .ins 1 7, .qfirst]) 1 = .ok 7 :=
  claim_C3 (fun a => a) (runOps (fun a => a) (mkTable 3) [.ins 0 1]) _ 1 7
    [.ins 2 9, .rem 0, .ins 1 7, .qfirst]
    (reachable_runOps _ (by omega) _) (by decide)
    (by
      intro op hop
      fin_cases hop <;>
        exact ⟨by simp, by intro v' h; cases h <;> rfl⟩)

/-- C4: in every reachable state, `insert k v` fails (with the
capacity-exceeded error) iff `k` is absent and `count = size`; on such a
failure the table is exactly as before the call. -/
theorem claim_C4 (hf : Nat → Nat) (t : Table) (k v : Nat)
    (hreach : Reachable hf t) :
    (insert hf t k v = .error .full ↔
      ¬ Present t k ∧ t.count = (t.size : Int)) ∧
    (∀ e, insert hf t k v = .error e → applyOp hf t (.ins k v) = t) := by
  have hwf := reachable_wf hreach
  constructor
  · constructor
    · intro h
      by_cases hp : Present t k
      · obtain ⟨i, v₀, hi⟩ := present_iff.mp hp
        rw [insert_present hwf hi v] at h
        exact absurd h (by simp)
      · refine ⟨hp, ?_⟩
        rcases Nat.lt_or_ge (occCount t) t.size with hlt | hge
        · obtain ⟨_, _, _, heq⟩ := insert_absent_notfull hwf hp hlt v
          rw [heq] at h
          exact absurd h (by simp)
        · have hfull : occCount t = t.size := by
            have : occCount t ≤ t.slots.length := occ_le _
            rw [hwf.slots_len] at this
            omega
          rw [← hwf.occ_eq_count, hfull]
    · rintro ⟨hp, hcnt⟩
      have hfull : occCount t = t.size := by
        have h1 := hwf.occ_eq_count
        rw [hcnt] at h1
        exact_mod_cast h1
      exact insert_absent_full hwf hp hfull v
  · intro e h
    show (match insert hf t k v with | .ok t' => t' | .error _ => t) = t
    rw [h]

theorem claim_C4_witness :
    insert (fun a => a)
      (runOps (fun a => a) (mkTable 2) [.ins 0 1, .ins 1 2]) 2 9 =
      .error .full ∧
    applyOp (fun a => a)
      (runOps (fun a => a) (mkTable 2) [.ins 0 1, .ins 1 2]) (.ins 2 9) =
      runOps (fun a => a) (mkTable 2) [.ins 0 1, .ins 1 2] := by
  have h := claim_C4 (fun a => a)
    (runOps (fun a => a) (mkTable 2) [.ins 0 1, .ins 1 2]) 2 9
    (reachable_runOps _ (by omega) _)
  refine ⟨h.1.mpr ⟨by decide, by decide⟩, h.2 .full (h.1.mpr ⟨by decide, by decide⟩)⟩

/-- C5: in every reachable state, `get k` and `remove k` fail (with the
not-found error) iff `k` is absent; on such a failure the table is
exactly as before the call (`get` never mutates at all). -/
theorem claim_C5 (hf : Nat → Nat) (t : Table) (k : Nat)
    (hreach : Reachable hf t) :
    ((get hf t k = .error .notFound ↔ ¬ Present t k) ∧
     (remove hf t k = .error .notFound ↔ ¬ Present t k)) ∧
    ((∀ e, remove hf t k = .error e → applyOp hf t (.rem k) = t) ∧
     applyOp hf t (.qget k) = t) := by
  have hwf := reachable_wf hreach
  refine ⟨⟨⟨?_, fun hp => get_absent hwf hp⟩,
           ⟨?_, fun hp => remove_absent hwf hp⟩⟩,
          ⟨?_, rfl⟩⟩
  · intro h hp
    obtain ⟨i, v₀, hi⟩ := present_iff.mp hp
    rw [get_present hwf hi] at h
    exact Except.noConfusion h
  · intro h hp
    obtain ⟨i, v₀, hi⟩ := present_iff.mp hp
    rw [remove_present hwf hi] at h
    exact Except.noConfusion h
  · intro e h
    show (match remove hf t k with | .ok t' => t' | .error _ => t) = t
    rw [h]

theorem claim_C5_witness :
    get (fun a => a) (runOps (fun a => a) (mkTable 3) [.ins 0 1]) 2 =
      .error .notFound ∧
    applyOp (fun a => a) (runOps (fun a => a) (mkTable 3) [.ins 0 1])
      (.rem 2) = runOps (fun a => a) (mkTable 3) [.ins 0 1] := by
  have h := claim_C5 (fun a => a)
    (runOps (fun a => a) (mkTable 3) [.ins 0 1]) 2
    (reachable_runOps _ (by omega) _)
  exact ⟨h.1.1.mpr (by decide), h.2.1 .notFound (h.1.2.mpr (by decide))⟩

/-- C6: updating a present key replaces its value (visible through
`get`), makes its entry the result of `get_last`, and leaves `find_slot`
at the same index as before the update. -/
theorem claim_C6 (hf : Nat → Nat) (t t' : Table) (k v₀ v' : Nat)
    (hreach : Reachable hf t)
    (hslot : slotAt t (findSlot hf t k) = some (k, v₀))
    (hins : insert hf t k v' = .ok t') :
    get hf t' k = .ok v' ∧ getLast t' = some (k, v') ∧
    findSlot hf t' k = findSlot hf t k := by
  have hwf := reachable_wf hreach
  rw [insert_present hwf hslot v'] at hins
  injection hins with h'
  have hwf' : WF hf t' := by
    rw [← h']
    exact wf_insert_update hwf hslot
  have hslot' : slotAt t' (findSlot hf t k) = some (k, v') := by
    rw [← h']
    exact getD_set_self (slotAt_lt_of_some hslot)
  have hmem : k ∈ t.order := (hwf.mem_iff k).mpr ⟨_, v₀, hslot⟩
  refine ⟨get_present hwf' hslot', ?_, hwf'.findSlot_present hslot'⟩
  have horder : t'.order = t.order.erase k ++ [k] := by
    rw [← h']
    exact moveToEnd_eq hmem hwf.nodup
  unfold getLast
  rw [horder, List.getLast?_concat]
  simp [valOf_eq hwf' hslot']

theorem claim_C6_witness :
    get (fun a => a)
      (applyOp (fun a => a)
        (runOps (fun a => a) (mkTable 3) [.ins 0 1, .ins 1 2]) (.ins 0 9))
      0 = .ok 9 :=
  (claim_C6 (fun a => a)
    (runOps (fun a => a) (mkTable 3) [.ins 0 1, .ins 1 2]) _ 0 1 9
    (reachable_runOps _ (by omega) _) (by decide) (by decide)).1

/-- C7: `get_first` returns the least recently inserted-or-updated live
entry and `get_last` the most recent one, as given by the spec's recency
sequence (`recSpec`); on an empty table both return `none`. -/
theorem claim_C7 (hf : Nat → Nat) (n : Nat) (hn : 1 ≤ n) (ops : List Op) :
    getFirst (runOps hf (mkTable n) ops) = (recSpec n [] ops).head? ∧
    getLast (runOps hf (mkTable n) ops) = (recSpec n [] ops).getLast? ∧
    ((runOps hf (mkTable n) ops).count = 0 →
      getFirst (runOps hf (mkTable n) ops) = none ∧
      getLast (runOps hf (mkTable n) ops) = none) := by
  have hreach := reachable_runOps hf hn ops
  have hwf := reachable_wf hreach
  have hoe : orderEntries (runOps hf (mkTable n) ops) = recSpec n [] ops := by
    have h : orderEntries (runOps hf (mkTable n) ops) =
        recSpec (mkTable n).size (orderEntries (mkTable n)) ops :=
      orderEntries_runOps ops (mkTable n) (Reachable.init n hn)
    exact h
  have hfirst : getFirst (runOps hf (mkTable n) ops) =
      (orderEntries (runOps hf (mkTable n) ops)).head? := by
    unfold getFirst orderEntries
    rw [List.head?_map]
  have hlast : getLast (runOps hf (mkTable n) ops) =
      (orderEntries (runOps hf (mkTable n) ops)).getLast? := by
    unfold getLast orderEntries
    rw [List.getLast?_map]
  refine ⟨by rw [hfirst, hoe], by rw [hlast, hoe], ?_⟩
  intro hcnt
  have hlen : (runOps hf (mkTable n) ops).order.length = 0 := by
    have := hwf.count_ord
    rw [hcnt] at this
    exact_mod_cast this.symm
  have hord : (runOps hf (mkTable n) ops).order = [] :=
    List.length_eq_zero.mp hlen
  constructor
  · unfold getFirst
    rw [hord]
    rfl
  · unfold getLast
    rw [hord]
    rfl

theorem claim_C7_witness :
    getFirst (runOps (fun a => a) (mkTable 3)
      [.ins 0 1, .ins 1 2, .ins 0 9]) =
      (recSpec 3 [] [.ins 0 1, .ins 1 2, .ins 0 9]).head? :=
  (claim_C7 (fun a => a) 3 (by omega) [.ins 0 1, .ins 1 2, .ins 0 9]).1

/-- C8: in every reachable state, `count ≤ size`. -/
theorem claim_C8 (hf : Nat → Nat) (t : Table) (hreach : Reachable hf t) :
    t.count ≤ (t.size : Int) :=
  (reachable_wf hreach).count_le

theorem claim_C8_witness :
    (runOps (fun a => a) (mkTable 2)
      [.ins 0 1, .ins 1 2, .ins 2 3]).count ≤
    ((runOps (fun a => a) (mkTable 2)
      [.ins 0 1, .ins 1 2, .ins 2 3]).size : Int) :=
  claim_C8 (fun a => a) _ (reachable_runOps _ (by omega) _)

/-- C9: for a present key the cluster-repair walk of `remove` needs at
most `size` slot examinations: the walk the code runs (fuel `size`)
returns the same table as with any amount of extra fuel, and the removal
succeeds. -/
theorem claim_C9 (hf : Nat → Nat) (t : Table) (k i v : Nat)
    (hreach : Reachable hf t) (hslot : slotAt t i = some (k, v)) :
    (∃ t', remove hf t k = .ok t') ∧
    ∀ f, rehashGo hf i (t.size + f) ((i + 1) % t.size)
        { t with slots := t.slots.set i none, count := t.count - 1,
                 order := t.order.erase k } =
      rehashCluster hf
        { t with slots := t.slots.set i none, count := t.count - 1,
                 order := t.order.erase k } i := by
  have hwf := reachable_wf hreach
  have hiN : i < t.size := by
    have := slotAt_lt_of_some hslot
    rw [hwf.slots_len] at this
    exact this
  refine ⟨⟨_, remove_present hwf hslot⟩, ?_⟩
  intro f
  exact @rehashCluster_fuel hf
    { t with slots := t.slots.set i none, count := t.count - 1,
             order := t.order.erase k } i hwf.size_pos hiN
    (getD_set_self (slotAt_lt_of_some hslot)) (t.size + f)
    (by show t.size ≤ t.size + f + 1; omega)

theorem claim_C9_witness :
    rehashGo (fun a => a) 1 (3 + 5) ((1 + 1) % 3)
        (let t := runOps (fun a => a) (mkTable 3) [.ins 0 1, .ins 1 2]
         { t with slots := t.slots.set 1 none, count := t.count - 1,
                  order := t.order.erase 1 }) =
      rehashCluster (fun a => a)
        (let t := runOps (fun a => a) (mkTable 3) [.ins 0 1, .ins 1 2]
         { t with slots := t.slots.set 1 none, count := t.count - 1,
                  order := t.order.erase 1 }) 1 :=
  (claim_C9 (fun a => a)
    (runOps (fun a => a) (mkTable 3) [.ins 0 1, .ins 1 2]) 1 1 2
    (reachable_runOps _ (by omega) _) (by decide)).2 5

/-- C10 (counterexample): the claim that the `prev`/`next` pointers of
every entry other than the removed one are unchanged by `remove` is
false: removing the middle entry of a three-entry order list patches its
neighbour's `next` pointer. -/
theorem claim_C10_counterexample :
    Reachable (fun a => a)
      (runOps (fun a => a) (mkTable 5) [.ins 0 10, .ins 1 11, .ins 2 12]) ∧
    remove (fun a => a)
      (runOps (fun a => a) (mkTable 5) [.ins 0 10, .ins 1 11, .ins 2 12]) 1 =
      .ok (applyOp (fun a => a)
        (runOps (fun a => a) (mkTable 5) [.ins 0 10, .ins 1 11, .ins 2 12])
        (.rem 1)) ∧
    nextInOrder
      (runOps (fun a => a) (mkTable 5)
        [.ins 0 10, .ins 1 11, .ins 2 12]).order 0 = some 1 ∧
    nextInOrder
      (applyOp (fun a => a)
        (runOps (fun a => a) (mkTable 5) [.ins 0 10, .ins 1 11, .ins 2 12])
        (.rem 1)).order 0 = some 2 :=
  ⟨reachable_runOps _ (by omega) _, by decide, by decide, by decide⟩

/-- C10 (amended): `remove`'s cluster repair re-seats entries in the slot
array only — the repair walk never changes the order list at all — and
the whole `remove k` leaves the order list exactly the old list with `k`
unlinked, so the relative recency order and the endpoint membership of
every other entry are preserved (only the removed node's immediate
neighbours have a pointer patched onto each other). -/
theorem claim_C10_amended (hf : Nat → Nat) (t t' : Table) (k : Nat)
    (hreach : Reachable hf t) (hrem : remove hf t k = .ok t') :
    t'.order = t.order.erase k ∧
    (∀ start fuel idx u, (rehashGo hf start fuel idx u).order = u.order) := by
  have hwf := reachable_wf hreach
  obtain ⟨_, horder, _, _, _⟩ := remove_ok_spec hwf hrem
  exact ⟨horder, fun start fuel idx u => rehashGo_order hf start fuel idx u⟩

theorem claim_C10_amended_witness :
    (applyOp (fun a => a)
      (runOps (fun a => a) (mkTable 5) [.ins 0 10, .ins 1 11, .ins 2 12])
      (.rem 1)).order =
    (runOps (fun a => a) (mkTable 5)
      [.ins 0 10, .ins 1 11, .ins 2 12]).order.erase 1 :=
  (claim_C10_amended (fun a => a)
    (runOps (fun a => a) (mkTable 5) [.ins 0 10, .ins 1 11, .ins 2 12]) _ 1
    (reachable_runOps _ (by omega) _) (by decide)).1

end HashTable
